import Mathlib

/-!
Verification of the tree-gathering and aggregation engine of `atree.py`.

The Python source is shallowly embedded below: the null-aware algebra
(`lt`, `le`, `min_of`, `max_of`, `add`, `best_of`, `sum_of`), the sort
comparator factory `fields_to_cmp`, the content-hash helper `compute_md5`,
the bounded top-K selector `Top_K_and_Which`, and the recursive
`Tree._gather` walk.  Absent Python values (`None`) are embedded as `none`
of an `Option` type; Python numbers are embedded as `Int`.
-/

set_option linter.unusedVariables false

namespace Atree

/-- Result of the Python idiom `(a > b) - (a < b)` on two ordered values:
`1`, `-1` or `0`. -/
def sign {α : Type _} [LinearOrder α] (a b : α) : Int :=
  (if a > b then 1 else 0) - (if a < b then 1 else 0)

/-- `lt(a, b)` from `atree.py`.  The source computes
`i = int(a is not None) + 2 * int(b is not None)` and returns
`(i == 2) or (i == 3 and a < b)`; the four cases of the match are the four
values of `i`. -/
def lt {α : Type _} [LinearOrder α] : Option α → Option α → Bool
  | none, none => false            -- i = 0
  | some _, none => false          -- i = 1
  | none, some _ => true           -- i = 2
  | some a, some b => decide (a < b)  -- i = 3

/-- `le(a, b)` from `atree.py`: `(i == 0) or (i == 2) or (i == 3 and a <= b)`. -/
def le {α : Type _} [LinearOrder α] : Option α → Option α → Bool
  | none, none => true             -- i = 0
  | some _, none => false          -- i = 1
  | none, some _ => true           -- i = 2
  | some a, some b => decide (a ≤ b)  -- i = 3

/-- `gt(a, b) = lt(b, a)` from `atree.py`. -/
def gt {α : Type _} [LinearOrder α] (a b : Option α) : Bool := lt b a

/-- `ge(a, b) = le(b, a)` from `atree.py`. -/
def ge {α : Type _} [LinearOrder α] (a b : Option α) : Bool := le b a

/-- `min_of(a, b)` from `atree.py`: `a if lt(a, b) else b`. -/
def min_of {α : Type _} [LinearOrder α] (a b : Option α) : Option α :=
  if lt a b then a else b

/-- `max_of(a, b)` from `atree.py`: `b if lt(a, b) else a`. -/
def max_of {α : Type _} [LinearOrder α] (a b : Option α) : Option α :=
  if lt a b then b else a

/-- `add(a, b)` from `atree.py`: absent only when both operands are absent,
otherwise the sum of the present sides. -/
def add : Option Int → Option Int → Option Int
  | none, none => none             -- i = 0
  | some a, none => some a         -- i = 1
  | none, some b => some b         -- i = 2
  | some a, some b => some (a + b) -- i = 3

/-- `best_of(nodes, attr)` from `atree.py`: Python `max` over the attribute
values that are present; the `ValueError` raised on an empty sequence is
turned into `None`. -/
def best_of {α : Type _} (nodes : List α) (attr : α → Option Int) : Option Int :=
  match nodes.filterMap attr with
  | [] => none
  | x :: xs => some (xs.foldl max x)

/-- `sum_of(nodes, attr)` from `atree.py`: Python `sum` over the attribute
values that are present.  Note that Python `sum` of an empty sequence is the
integer `0`, never `None`; the return type `Int` records that. -/
def sum_of {α : Type _} (nodes : List α) (attr : α → Option Int) : Int :=
  (nodes.filterMap attr).foldl (· + ·) 0

/-- Modelled from the spec: the spec (§4.2) states that `best_of`/`sum_of`
apply the null-aware combinators over a node's children, so a sum in which
every operand is absent would itself be absent.  This definition folds the
source's `add` over the children as the spec describes; it exists only to be
compared with the source's `sum_of` above. -/
def sum_of_spec {α : Type _} (nodes : List α) (attr : α → Option Int) : Option Int :=
  nodes.foldl (fun acc n => add acc (attr n)) none

/-- One sort key handed to `fields_to_cmp`: an attribute producing either a
numeric value or a string value (Python decides with
`isinstance(af, (int, float))`). -/
inductive SortField (α : Type _) where
  | num (get : α → Option Int)
  | str (get : α → Option String)

/-- Whether the sort field is present on a node. -/
def SortField.present {α : Type _} (f : SortField α) (a : α) : Bool :=
  match f with
  | .num get => (get a).isSome
  | .str get => (get a).isSome

/-- One iteration of the field loop inside the `cmp` closure built by
`fields_to_cmp`: `some r` means `cmp` returns `r`, `none` means the loop
falls through to the next field.  With `i = int(af is not None) +
int(bf is not None) * 2`: `0 < i < 3` returns `(0, -1, 1)[i]`; `i == 3`
computes `result = (af > bf) - (af < bf)` and, when nonzero, returns
`-result` for numeric fields and `result` otherwise. -/
def fieldResult {α : Type _} (a b : α) : SortField α → Option Int
  | .num get =>
    match get a, get b with
    | none, none => none             -- i = 0: fall through
    | some _, none => some (-1)      -- i = 1
    | none, some _ => some 1         -- i = 2
    | some af, some bf =>            -- i = 3, sign flipped for numbers
      if sign af bf = 0 then none else some (-(sign af bf))
  | .str get =>
    match get a, get b with
    | none, none => none
    | some _, none => some (-1)
    | none, some _ => some 1
    | some af, some bf =>
      if sign af bf = 0 then none else some (sign af bf)

/-- The field loop of the `cmp` closure. -/
def cmpFields {α : Type _} : List (SortField α) → α → α → Int
  | [], _, _ => 0
  | f :: fs, a, b =>
    match fieldResult a b f with
    | some r => r
    | none => cmpFields fs a b

/-- `fields_to_cmp(fields)` from `atree.py`.  The leading test
`i = int(a is not None) + 2 * int(b is not None); if i < 3: return (0,-1,1)[i]`
handles absent nodes, then the field loop runs. -/
def fields_to_cmp {α : Type _} (fields : List (SortField α)) :
    Option α → Option α → Int
  | none, none => 0
  | some _, none => -1
  | none, some _ => 1
  | some a, some b => cmpFields fields a b

/-- `EMPTY_FILE_MD5_HASH` from `atree.py`: the distinguished sentinel that
replaces the MD5 digest of empty content. -/
def EMPTY_FILE_MD5_HASH : String := "~"

/-- `compute_md5(path)` from `atree.py`.  The digest function itself is the
external `hashlib.md5` hexdigest, abstracted as the parameter `hashFn`; the
source compares the digest against `EMPTY_FILE_MD5_ORIG`, the literal digest
of empty input, i.e. `hashFn ""`.  `content = none` models the
`PermissionError` branch, which returns `None`. -/
def compute_md5 (hashFn : String → String) (content : Option String) : Option String :=
  match content with
  | none => none
  | some c => if hashFn c = hashFn "" then some EMPTY_FILE_MD5_HASH else some (hashFn c)

/-- `Value_and_Which` from `atree.py`: one heap entry.  Its `__lt__`
compares by `value` only, so the heap order never inspects `which`. -/
structure Value_and_Which (W : Type _) where
  value : Int
  which : W
  deriving DecidableEq

/-- Ordered insertion by `value` into a list kept sorted ascending.
`heapq.heappush` is external library code; its contract is that the heap
holds a multiset of entries with the minimum at index `0`.  The heap
contents are therefore represented as a list sorted ascending by `value`
(ties keep the incumbent first), for which insertion realises `heappush`:
the multiset grows by the new entry and the head stays the minimum. -/
def heapInsert {W : Type _} (x : Value_and_Which W) :
    List (Value_and_Which W) → List (Value_and_Which W)
  | [] => [x]
  | y :: ys => if x.value < y.value then x :: y :: ys else y :: heapInsert x ys

/-- `Top_K_and_Which` from `atree.py`: `capacity` and the heap `_list`,
represented sorted ascending by `value` (see `heapInsert`). -/
structure Top_K_and_Which (W : Type _) where
  capacity : Nat
  list : List (Value_and_Which W)
  deriving DecidableEq

/-- `Top_K_and_Which.push(value, which)`: below capacity, `heappush`;
otherwise `heappushpop`, whose contract is: if the heap is nonempty and
`heap[0] < item` then the minimum is replaced by the item, else the heap is
unchanged (the item is returned instead).  With the sorted representation
the minimum is the head. -/
def Top_K_and_Which.push {W : Type _} (s : Top_K_and_Which W)
    (value : Int) (which : W) : Top_K_and_Which W :=
  if s.list.length < s.capacity then
    { s with list := heapInsert ⟨value, which⟩ s.list }
  else
    match s.list with
    | [] => s
    | m :: rest =>
      if m.value < value then
        { s with list := heapInsert ⟨value, which⟩ rest }
      else s

/-- `Top_K_and_Which.next_to_pop`: `None` while fewer than `capacity` items
are held, otherwise `self._list[0].value`, the minimum held value. -/
def Top_K_and_Which.next_to_pop {W : Type _} (s : Top_K_and_Which W) : Option Int :=
  if s.list.length < s.capacity then none
  else s.list.head?.map Value_and_Which.value

/-- The multiset of held values, as a list (sorted ascending). -/
def heldValues {W : Type _} (s : Top_K_and_Which W) : List Int :=
  s.list.map Value_and_Which.value

/-- Value-level ordered insertion, the projection of `heapInsert`. -/
def insertV (v : Int) : List Int → List Int
  | [] => [v]
  | y :: ys => if v < y then v :: y :: ys else y :: insertV v ys

/-- Value-level projection of `Top_K_and_Which.push` with capacity `K`. -/
def pushV (K : Nat) (v : Int) (H : List Int) : List Int :=
  if H.length < K then insertV v H
  else
    match H with
    | [] => []
    | m :: rest => if m < v then insertV v rest else m :: rest

/-- Offering a whole stream of values to a fresh selector of capacity `K`
(the `which` payload never affects the heap order, so a constant payload is
used). -/
def offerAll (K : Nat) (vs : List Int) : Top_K_and_Which Nat :=
  vs.foldl (fun s v => s.push v 0) { capacity := K, list := [] }

/-- Value-level projection of `offerAll`. -/
def offerAllV (K : Nat) (vs : List Int) : List Int :=
  vs.foldl (fun H v => pushV K v H) []

/-- One file-side filesystem entry (a node whose `is_to_dir` is false): the
lstat-derived scalar attributes, the classification bits `is_file`/`is_link`,
and the content by which `compute_md5` hashes it (`none` models an
unreadable file, i.e. the `PermissionError` branch). -/
structure FileEntry where
  name : String
  size : Int
  lines : Option Int
  atime : Int
  btime : Int
  ctime : Int
  mtime : Int
  isFile : Bool
  isLink : Bool
  content : Option String
  deriving DecidableEq

/-- One directory-side filesystem entry (a node whose `is_to_dir` is true):
either a real directory or, when `isLink`, a symbolic link to one. -/
structure DirEntry where
  name : String
  size : Int
  atime : Int
  btime : Int
  ctime : Int
  mtime : Int
  isLink : Bool
  deriving DecidableEq

/-- The filesystem walked by `Tree._gather`.  A `dir` carries the result of
`os.listdir`: `none` models an `OSError` (e.g. permission denied), `some
entries` a successful listing. -/
inductive FSTree where
  | file (f : FileEntry)
  | dir (d : DirEntry) (listing : Option (List FSTree))

/-- The ranking metric of `--show ATTR@topN`: `top_mode` is `"f" + metric`
and `top_attr` is `"b" + metric`. -/
inductive Metric where
  | lines
  | size
  | atime
  | btime
  | ctime
  | mtime
  deriving DecidableEq

/-- `getattr(f, top_mode)` for a file node: `Node.__getattr__` resolves the
`f`-form as the plain attribute when `is_file or is_link`, else `None`. -/
def FileEntry.fval (f : FileEntry) (m : Metric) : Option Int :=
  if f.isFile || f.isLink then
    match m with
    | .lines => f.lines
    | .size => some f.size
    | .atime => some f.atime
    | .btime => some f.btime
    | .ctime => some f.ctime
    | .mtime => some f.mtime
  else none

/-- The aggregate attributes `Tree._gather` stores on a directory node.
`bsize`/`rsize` and the four timestamps are initialised to the directory's
own (always present) stats; `blines`/`rlines` start absent.  `topVal`
models `top_val`, which the source assigns only to gathered directories in
top mode; a truncated directory never gets the attribute (see `linkDir`). -/
structure Agg where
  fcount : Nat
  dcount : Nat
  blines : Option Int
  rlines : Option Int
  bsize : Option Int
  rsize : Option Int
  batime : Option Int
  bbtime : Option Int
  bctime : Option Int
  bmtime : Option Int
  topVal : Option Int
  deriving DecidableEq

/-- `getattr(node, "b" + metric)`, the seed read for `top_val`. -/
def Agg.bval (a : Agg) : Metric → Option Int
  | .lines => a.blines
  | .size => a.bsize
  | .atime => a.batime
  | .btime => a.bbtime
  | .ctime => a.bctime
  | .mtime => a.bmtime

/-- A node of the gathered tree: a linked file, a linked symbolic link to a
directory, or a directory with its `ignore` mark, aggregates and surviving
children.  `Node.children` is a Python set of distinct freshly created
objects; it is represented as a list in insertion order. -/
inductive ResNode where
  | file (f : FileEntry)
  | linkDir (d : DirEntry)
  | dir (d : DirEntry) (ignore : Bool) (agg : Agg) (children : List ResNode)

/-- The per-run mutable selection state of the walk: the top-K heap (the
`which` payload is the offered file), the duplicate map `dup_map`, the
duplicate set `dup_set`, and `_level_reached`. -/
structure GState where
  heap : Top_K_and_Which FileEntry
  dupMap : List (Option String × List FileEntry)
  dupSet : List String
  levelReached : Nat

/-- The `Tree` configuration that `_gather` consumes: the classification
predicates `fpred`/`dpred`, the post-aggregation predicate `dpost`, the
`always_show_dirs`, `access_level` and `read_lines` settings, the top-mode
metric (the capacity `top_count` lives in the heap), the duplicate-mode
flags, and the abstract digest function used by `compute_md5`. -/
structure Config where
  fpred : FileEntry → Bool
  dpred : DirEntry → Bool
  dpost : ResNode → Bool
  alwaysShowDirs : Bool
  accessLevel : Nat
  readLines : Bool
  topMode : Option Metric
  dupMode : Bool
  dupNonempty : Bool
  hashFn : String → String

/-- Python `dict` lookup on the duplicate map. -/
def mapLookup (m : List (Option String × List FileEntry)) (k : Option String) :
    Option (List FileEntry) :=
  match m with
  | [] => none
  | (k', v) :: rest => if k' = k then some v else mapLookup rest k

/-- Python `dict[k] = v`: replace in place, or append a new key. -/
def mapSet (m : List (Option String × List FileEntry)) (k : Option String)
    (v : List FileEntry) : List (Option String × List FileEntry) :=
  match m with
  | [] => [(k, v)]
  | (k', v') :: rest => if k' = k then (k, v) :: rest else (k', v') :: mapSet rest k v

/-- Python `dict[k].append(f)` for a key that is present (on an absent key
the source would raise; the walk only appends after a membership test). -/
def mapAppend (m : List (Option String × List FileEntry)) (k : Option String)
    (f : FileEntry) : List (Option String × List FileEntry) :=
  match m with
  | [] => []
  | (k', v') :: rest =>
    if k' = k then (k', v' ++ [f]) :: rest else (k', v') :: mapAppend rest k f

/-- Python `set.add` on `dup_set`, represented as a duplicate-free list. -/
def setInsert (s : List String) (h : String) : List String :=
  if h ∈ s then s else s ++ [h]

/-- The duplicate block of the file loop in `Tree._gather`:
`checksum = f.md5`; `if checksum != EMPTY_FILE_MD5_HASH or not
self.dup_nonempty:` then `if checksum and checksum in self.dup_map:` append
the node and add the hash to `dup_set`, `else` set `dup_map[checksum] =
[f]`.  Python truthiness of the checksum is: present and a nonempty
string. -/
def dupStep (cfg : Config) (st : GState) (f : FileEntry) : GState :=
  if cfg.dupMode then
    let checksum := compute_md5 cfg.hashFn f.content
    if checksum ≠ some EMPTY_FILE_MD5_HASH ∨ cfg.dupNonempty = false then
      match checksum with
      | some h =>
        if h ≠ "" ∧ (mapLookup st.dupMap (some h)).isSome then
          { st with
              dupMap := mapAppend st.dupMap (some h) f
              dupSet := setInsert st.dupSet h }
        else { st with dupMap := mapSet st.dupMap (some h) [f] }
      | none => { st with dupMap := mapSet st.dupMap none [f] }
    else st
  else st

/-- The attribute block of the truncation branch (`else: d.ignore = True;
...`) of `Tree._gather`: zero counts, absent line aggregates, and the
directory's own stats for sizes and timestamps.  `top_val` is not among the
assigned attributes.  The same assignments (except `ignore`) open `_gather`
itself, so this is also the base of `initAgg`. -/
def truncAgg (e : DirEntry) : Agg :=
  { fcount := 0
    dcount := 0
    blines := none
    rlines := none
    bsize := some e.size
    rsize := some e.size
    batime := some e.atime
    bbtime := some e.btime
    bctime := some e.ctime
    bmtime := some e.mtime
    topVal := none }

/-- The initial aggregates of `Tree._gather`: the own-stat block above,
plus `root.top_val = getattr(root, self.top_attr)` when top mode is active,
reading the `b`-field just initialised. -/
def initAgg (cfg : Config) (e : DirEntry) : Agg :=
  let a := truncAgg e
  match cfg.topMode with
  | some m => { a with topVal := a.bval m }
  | none => a

/-- The unconditional tail of the file loop of `Tree._gather`: link the file
into `root.children`, bump `fcount`, fold the stats into the aggregates
(lines only when `read_lines`), and run the duplicate block.
`root.rsize += f.size` is a plain Python `+=`; it is written with `add`,
with which it agrees because `rsize` is always present (it is initialised to
the directory's own size). -/
def linkFile (cfg : Config) (agg : Agg) (ch : List ResNode) (st : GState)
    (f : FileEntry) : Agg × List ResNode × GState :=
  ({ agg with
      fcount := agg.fcount + 1
      blines := if cfg.readLines then max_of f.lines agg.blines else agg.blines
      rlines := if cfg.readLines then add agg.rlines f.lines else agg.rlines
      bsize := max_of (some f.size) agg.bsize
      rsize := add agg.rsize (some f.size)
      batime := max_of (some f.atime) agg.batime
      bbtime := max_of (some f.btime) agg.bbtime
      bctime := max_of (some f.ctime) agg.bctime
      bmtime := max_of (some f.mtime) agg.bmtime },
   ch ++ [ResNode.file f],
   dupStep cfg st f)

/-- One iteration of the file loop of `Tree._gather` for a file that passed
`fpred`.  In top mode, `val = getattr(f, self.top_mode, None)` and the gate
`le(val, self.top_heap.next_to_pop)` skips the file; since `le` is true
whenever its left operand is absent, an absent value always skips (the
`none` case below).  An admitted file is pushed onto the heap and
`root.top_val = max_of(val, root.top_val)` runs before the common tail. -/
def fileStep (cfg : Config) (acc : Agg × List ResNode × GState)
    (f : FileEntry) : Agg × List ResNode × GState :=
  match acc with
  | (agg, ch, st) =>
    match cfg.topMode with
    | some m =>
      match f.fval m with
      | none => acc
      | some v =>
        if le (some v) st.heap.next_to_pop then acc
        else
          linkFile cfg { agg with topVal := max_of (some v) agg.topVal } ch
            { st with heap := st.heap.push v f } f
    | none => linkFile cfg agg ch st f

/-- The aggregate fold of the directory loop of `Tree._gather` for a linked
directory child with aggregates `da`: counts, the `if d.rlines is not None`
guarded line fold, and the size/time folds (`root.rsize += d.rsize` is again
a plain `+=` between always-present values, written with `add`). -/
def foldDirAgg (agg da : Agg) : Agg :=
  { agg with
    fcount := agg.fcount + da.fcount
    dcount := agg.dcount + da.dcount + 1
    blines := if da.rlines ≠ none then max_of da.blines agg.blines else agg.blines
    rlines := if da.rlines ≠ none then add agg.rlines da.rlines else agg.rlines
    bsize := max_of da.bsize agg.bsize
    rsize := add agg.rsize da.rsize
    bmtime := max_of da.bmtime agg.bmtime
    batime := max_of da.batime agg.batime
    bctime := max_of da.bctime agg.bctime
    bbtime := max_of da.bbtime agg.bbtime }

/-- The tail of the directory loop of `Tree._gather` for a non-link child
`d` with `ignore` mark `ign`, aggregates `da` and children `dch`: the
post-filter (`if not self.dpost(d): continue`), the empty-directory pruning
(`if not self.always_show_dirs and d.fcount == 0 and d.dcount == 0:
continue`), the top-mode gate (`if lt(d.top_val, next_to_pop): continue`),
then `root.top_val = max_of(d.top_val, root.top_val)` and the linking fold.
For a truncated directory the source never assigned `top_val`, so reading
`d.top_val` in the gate raises `AttributeError`; that is the `.error`
case. -/
def linkDir (cfg : Config) (acc : Agg × List ResNode × GState) (d : DirEntry)
    (ign : Bool) (da : Agg) (dch : List ResNode) :
    Except String (Agg × List ResNode × GState) :=
  match acc with
  | (agg, ch, st) =>
    let node := ResNode.dir d ign da dch
    if cfg.dpost node = false then .ok acc
    else if cfg.alwaysShowDirs = false ∧ da.fcount = 0 ∧ da.dcount = 0 then .ok acc
    else
      match cfg.topMode with
      | some _ =>
        if ign then .error "AttributeError: top_val"
        else if lt da.topVal st.heap.next_to_pop then .ok acc
        else
          .ok (foldDirAgg { agg with topVal := max_of da.topVal agg.topVal } da,
               ch ++ [node], st)
      | none => .ok (foldDirAgg agg da, ch ++ [node], st)

/-- The file loop of `Tree._gather`: run over the listing in order, keeping
the nodes that are not `is_to_dir` and pass `fpred` (the `f_nodes`
classification), and apply `fileStep` to each. -/
def gatherFiles (cfg : Config) (acc : Agg × List ResNode × GState) :
    List FSTree → Agg × List ResNode × GState
  | [] => acc
  | .file f :: ts =>
    gatherFiles cfg (if cfg.fpred f then fileStep cfg acc f else acc) ts
  | .dir _ _ :: ts => gatherFiles cfg acc ts

mutual

/-- `Tree._gather(root, level)` minus the progress printing: update
`_level_reached`, initialise the aggregates (and `top_val` in top mode),
list the directory — an `OSError` (`listing = none`) warns and returns at
once — then run the file loop followed by the directory loop. -/
def gatherDir (cfg : Config) (level : Nat) (e : DirEntry)
    (listing : Option (List FSTree)) (st : GState) :
    Except String (Agg × List ResNode × GState) :=
  let st' := { st with levelReached := max level st.levelReached }
  match listing with
  | none => .ok (initAgg cfg e, [], st')
  | some entries =>
    gatherDirs cfg level (gatherFiles cfg (initAgg cfg e, [], st') entries) entries
termination_by (2 * sizeOf listing, 0)

/-- The directory loop of `Tree._gather`: run over the listing in order,
keeping the `is_to_dir` nodes that pass `dpred` (the `d_nodes`
classification), and apply `dirStep` to each. -/
def gatherDirs (cfg : Config) (level : Nat)
    (acc : Agg × List ResNode × GState) (ts : List FSTree) :
    Except String (Agg × List ResNode × GState) :=
  match ts with
  | [] => .ok acc
  | .file _ :: rest => gatherDirs cfg level acc rest
  | .dir d dlisting :: rest =>
    if cfg.dpred d then
      match dirStep cfg level acc d dlisting with
      | .error err => .error err
      | .ok acc' => gatherDirs cfg level acc' rest
    else gatherDirs cfg level acc rest
termination_by (2 * sizeOf ts, 0)

/-- One iteration of the directory loop of `Tree._gather`: a symbolic link
to a directory is linked (only `dcount` grows) when `always_show_dirs` and
is never recursed into; otherwise the child is recursed into while
`level < self.access_level`, or truncated with `ignore = True` and its own
stats; the outcome then goes through `linkDir`. -/
def dirStep (cfg : Config) (level : Nat) (acc : Agg × List ResNode × GState)
    (d : DirEntry) (dlisting : Option (List FSTree)) :
    Except String (Agg × List ResNode × GState) :=
  match acc with
  | (agg, ch, st) =>
    if d.isLink then
      .ok (if cfg.alwaysShowDirs then
        ({ agg with dcount := agg.dcount + 1 }, ch ++ [ResNode.linkDir d], st)
      else acc)
    else if level < cfg.accessLevel then
      match gatherDir cfg (level + 1) d dlisting st with
      | .error err => .error err
      | .ok (da, dch, st') => linkDir cfg (agg, ch, st') d false da dch
    else
      linkDir cfg acc d true (truncAgg d) []
termination_by (2 * sizeOf dlisting + 1, 0)

end

/-- Invariant of the top-K stream: after seeing `seen`, the held values `H`
are sorted, number `min |seen| K`, come from `seen`, are distinct, dominate
every rejected value, and are all of `seen` while below capacity. -/
def Inv (K : Nat) (seen H : List Int) : Prop :=
  List.Sorted (· ≤ ·) H ∧
  H.length = min seen.length K ∧
  (∀ v ∈ H, v ∈ seen) ∧
  H.Nodup ∧
  (∀ u ∈ seen, u ∉ H → ∀ w ∈ H, u < w) ∧
  (seen.length < K → ∀ u ∈ seen, u ∈ H)

/-- The files of a listing that the classification of `Tree._gather` keeps
(the `f_nodes` list): the entries that are not `is_to_dir` and pass
`fpred`, in listing order. -/
def keptFiles (cfg : Config) (entries : List FSTree) : List FileEntry :=
  entries.filterMap fun t =>
    match t with
    | .file f => if cfg.fpred f then some f else none
    | .dir _ _ => none

/-- Every directory node of a children list is truncated: marked `ignore`,
childless, with the truncation aggregates of its own entry. -/
def TruncatedOnly (l : List ResNode) : Prop :=
  ∀ d ig a c, ResNode.dir d ig a c ∈ l → ig = true ∧ c = [] ∧ a = truncAgg d

/-- The checksum the duplicate block computes for a file: `f.md5`. -/
def checksumOf (cfg : Config) (f : FileEntry) : Option String :=
  compute_md5 cfg.hashFn f.content

/-- Whether the duplicate block records the file at all: the
`checksum != EMPTY_FILE_MD5_HASH or not self.dup_nonempty` gate. -/
def dupRecorded (cfg : Config) (f : FileEntry) : Bool :=
  decide (checksumOf cfg f ≠ some EMPTY_FILE_MD5_HASH) || !cfg.dupNonempty

/-- The files of a visited stream that the duplicate block files under the
hash `h`. -/
def dupGroup (cfg : Config) (fs : List FileEntry) (h : String) : List FileEntry :=
  fs.filter fun f => dupRecorded cfg f && decide (checksumOf cfg f = some h)

/-- Folding the duplicate block over a stream of visited files, in the
order the walk reaches them. -/
def dupFold (cfg : Config) (st : GState) (fs : List FileEntry) : GState :=
  fs.foldl (dupStep cfg) st

/-- A nonempty list as an optional value (an empty group has no map
entry). -/
def listToOpt (l : List FileEntry) : Option (List FileEntry) :=
  match l with
  | [] => none
  | x :: xs => some (x :: xs)

/-- Fixture: a fresh selection state with heap capacity `k`. -/
def initState (k : Nat) : GState :=
  { heap := { capacity := k, list := [] }
    dupMap := []
    dupSet := []
    levelReached := 0 }

/-- Fixture: a permissive configuration, no top mode, no duplicate mode. -/
def cfgPlain : Config :=
  { fpred := fun _ => true
    dpred := fun _ => true
    dpost := fun _ => true
    alwaysShowDirs := true
    accessLevel := 100
    readLines := true
    topMode := none
    dupMode := false
    dupNonempty := false
    hashFn := fun c => "x" ++ c }

/-- Fixture: `cfgPlain` with top mode on size (and `read_lines` off). -/
def cfgTop : Config :=
  { cfgPlain with topMode := some Metric.size, readLines := false }

/-- Fixture: `cfgPlain` with top mode on lines. -/
def cfgTopLines : Config :=
  { cfgPlain with topMode := some Metric.lines }

/-- Fixture: `cfgPlain` with access level 1. -/
def cfgDepth1 : Config :=
  { cfgPlain with accessLevel := 1 }

/-- Fixture: `cfgPlain` with a rejecting post-filter. -/
def cfgNoPost : Config :=
  { cfgPlain with dpost := fun _ => false }

/-- Fixture: duplicate mode that excludes empty files. -/
def cfgDupNonempty : Config :=
  { cfgPlain with dupMode := true, dupNonempty := true }

/-- Fixture: duplicate mode including empty files. -/
def cfgDup : Config :=
  { cfgPlain with dupMode := true }

/-- Fixture: a regular file of size `n` named `nm`, no text lines,
unreadable content. -/
def mkFile (nm : String) (n : Int) : FileEntry :=
  { name := nm
    size := n
    lines := none
    atime := 0
    btime := 0
    ctime := 0
    mtime := 0
    isFile := true
    isLink := false
    content := none }

/-- Fixture: a regular file with readable content `c`. -/
def mkContentFile (nm : String) (c : String) : FileEntry :=
  { mkFile nm 1 with content := some c }

/-- Fixture: a directory entry of size `n`. -/
def mkDir (nm : String) (n : Int) : DirEntry :=
  { name := nm
    size := n
    atime := 0
    btime := 0
    ctime := 0
    mtime := 0
    isLink := false }

/-- Fixture: a selection state whose capacity-1 heap is full at value 5. -/
def stFull : GState :=
  { heap := { capacity := 1, list := [{ value := 5, which := mkFile "b" 5 }] }
    dupMap := []
    dupSet := []
    levelReached := 0 }

/-- Fixture: a parent accumulator over the full heap. -/
def accFull : Agg × List ResNode × GState :=
  (truncAgg (mkDir "r" 1), [], stFull)

end Atree

namespace Atree

/-! Theorems for claims C3 and C5. -/

/-- C3: the null-aware operators satisfy, for every value `x` (present or
absent) and all present values `a`, `b`: `max_of none x = x`;
`add none none = none`; `add none x = x`; `lt none (some b) = true`;
`lt (some a) none = false`; and the comparator built by `fields_to_cmp`
orders any node with the sort field present strictly before any node with
that field absent, for both a numeric and a string sort field. -/
theorem null_algebra_cmp_laws :
    (∀ x : Option Int, max_of none x = x) ∧
    (add none none = none) ∧
    (∀ x : Option Int, add none x = x) ∧
    (∀ b : Int, lt (none : Option Int) (some b) = true) ∧
    (∀ a : Int, lt (some a) (none : Option Int) = false) ∧
    (∀ (α : Type) (f : SortField α) (a b : α),
      f.present a = true → f.present b = false →
      fields_to_cmp [f] (some a) (some b) = -1 ∧
      fields_to_cmp [f] (some b) (some a) = 1) := by
  refine ⟨?_, rfl, ?_, fun b => rfl, fun a => rfl, ?_⟩
  · intro x; cases x <;> rfl
  · intro x; cases x <;> rfl
  · intro α f a b ha hb
    cases f with
    | num get =>
      simp only [SortField.present, Option.isSome_iff_exists] at ha hb
      obtain ⟨va, hva⟩ := ha
      have hgb : get b = none := by
        cases h : get b with
        | none => rfl
        | some v => rw [h] at hb; simp at hb
      constructor <;>
        simp [fields_to_cmp, cmpFields, fieldResult, hva, hgb]
    | str get =>
      simp only [SortField.present, Option.isSome_iff_exists] at ha hb
      obtain ⟨va, hva⟩ := ha
      have hgb : get b = none := by
        cases h : get b with
        | none => rfl
        | some v => rw [h] at hb; simp at hb
      constructor <;>
        simp [fields_to_cmp, cmpFields, fieldResult, hva, hgb]

/-- Witness for C3: the comparator part applied at a concrete numeric field
on concrete nodes. -/
theorem null_algebra_cmp_laws_witness :
    fields_to_cmp [SortField.num (fun x : Option Int => x)]
        (some (some 3)) (some none) = -1 ∧
    fields_to_cmp [SortField.num (fun x : Option Int => x)]
        (some none) (some (some 3)) = 1 :=
  null_algebra_cmp_laws.2.2.2.2.2 (Option Int)
    (SortField.num (fun x => x)) (some 3) none (by decide) (by decide)

/-- C5 counterexample: on a one-element list whose attribute is absent,
`best_of` is absent but the source's `sum_of` returns the present integer
`0`, while the spec-modelled sum (folding `add`, which the claim describes)
is absent.  The claim that `sum_of` returns absent is therefore false. -/
theorem sum_of_absent_cex :
    best_of [(none : Option Int)] id = none ∧
    sum_of [(none : Option Int)] id = 0 ∧
    sum_of_spec [(none : Option Int)] id = none := by
  refine ⟨rfl, rfl, rfl⟩

/-- Helper: an attribute absent on every node filters to the empty list. -/
theorem filterMap_of_all_absent {α : Type _} (l : List α) (attr : α → Option Int) :
    (∀ n ∈ l, attr n = none) → l.filterMap attr = [] := by
  induction l with
  | nil => intro _; rfl
  | cons x xs ih =>
    intro h
    rw [List.filterMap_cons, h x (List.mem_cons_self x xs)]
    exact ih fun n hn => h n (List.mem_cons_of_mem x hn)

/-- Helper: folding `add` over all-absent attributes keeps the sum absent. -/
theorem sum_of_spec_of_all_absent {α : Type _} (l : List α) (attr : α → Option Int) :
    (∀ n ∈ l, attr n = none) → sum_of_spec l attr = none := by
  induction l with
  | nil => intro _; rfl
  | cons x xs ih =>
    intro h
    rw [sum_of_spec, List.foldl_cons, h x (List.mem_cons_self x xs)]
    exact ih fun n hn => h n (List.mem_cons_of_mem x hn)

/-- C5 amended: for every list of nodes whose attribute is absent on every
node, `best_of` returns absent, but `sum_of` returns the integer `0` (the
Python `sum` of an empty sequence): total absence is coerced to zero by
`sum_of`, exactly as `sum_of_spec` shows it would not be under the spec's
add-folding description. -/
theorem best_sum_absent {α : Type _} (l : List α) (attr : α → Option Int)
    (h : ∀ n ∈ l, attr n = none) :
    best_of l attr = none ∧ sum_of l attr = 0 ∧ sum_of_spec l attr = none := by
  have hfm : l.filterMap attr = [] := filterMap_of_all_absent l attr h
  refine ⟨?_, ?_, sum_of_spec_of_all_absent l attr h⟩
  · rw [best_of, hfm]
  · rw [sum_of, hfm]; rfl

/-- Witness for C5's amended theorem at a concrete two-element list. -/
theorem best_sum_absent_witness :
    best_of [(none : Option Int), none] id = none ∧
    sum_of [(none : Option Int), none] id = 0 ∧
    sum_of_spec [(none : Option Int), none] id = none :=
  best_sum_absent [none, none] id (by decide)

/-! Lemmas about the top-K selector, leading to claim C1. -/

/-- Mapping `value` over a heap insertion is a value-level insertion. -/
theorem map_heapInsert {W : Type _} (x : Value_and_Which W)
    (l : List (Value_and_Which W)) :
    (heapInsert x l).map Value_and_Which.value
      = insertV x.value (l.map Value_and_Which.value) := by
  induction l with
  | nil => rfl
  | cons y ys ih =>
    by_cases h : x.value < y.value
    · simp [heapInsert, insertV, h]
    · simp [heapInsert, insertV, h, ih]

/-- Pushing never changes the capacity. -/
theorem capacity_push {W : Type _} (s : Top_K_and_Which W) (v : Int) (w : W) :
    (s.push v w).capacity = s.capacity := by
  unfold Top_K_and_Which.push
  split
  · rfl
  · split
    · rfl
    · split <;> rfl

/-- The held values of a push are the value-level push of the held values. -/
theorem heldValues_push {W : Type _} (s : Top_K_and_Which W) (v : Int) (w : W) :
    heldValues (s.push v w) = pushV s.capacity v (heldValues s) := by
  obtain ⟨cap, lst⟩ := s
  cases lst with
  | nil =>
    by_cases h : 0 < cap
    · simp [Top_K_and_Which.push, pushV, heldValues, h, insertV, heapInsert]
    · simp [Top_K_and_Which.push, pushV, heldValues, h]
  | cons m rest =>
    by_cases h : rest.length + 1 < cap
    · simp [Top_K_and_Which.push, pushV, heldValues, h, map_heapInsert]
    · by_cases h2 : m.value < v
      · simp [Top_K_and_Which.push, pushV, heldValues, h, h2, map_heapInsert]
      · simp [Top_K_and_Which.push, pushV, heldValues, h, h2]

/-- Membership in a value-level insertion. -/
theorem mem_insertV {a v : Int} : ∀ {H : List Int},
    a ∈ insertV v H ↔ a = v ∨ a ∈ H := by
  intro H
  induction H with
  | nil => simp [insertV]
  | cons y ys ih =>
    by_cases h : v < y
    · simp [insertV, h]
    · simp only [insertV, if_neg h, List.mem_cons, ih]
      tauto

/-- Length of a value-level insertion. -/
theorem length_insertV (v : Int) : ∀ (H : List Int),
    (insertV v H).length = H.length + 1 := by
  intro H
  induction H with
  | nil => rfl
  | cons y ys ih =>
    by_cases h : v < y
    · simp [insertV, h]
    · simp [insertV, h, ih]

/-- Value-level insertion preserves sortedness. -/
theorem sorted_insertV {v : Int} : ∀ {H : List Int},
    List.Sorted (· ≤ ·) H → List.Sorted (· ≤ ·) (insertV v H) := by
  intro H
  induction H with
  | nil => intro _; simp [insertV]
  | cons y ys ih =>
    intro hs
    rw [List.sorted_cons] at hs
    obtain ⟨hy, hys⟩ := hs
    by_cases h : v < y
    · rw [insertV, if_pos h, List.sorted_cons]
      refine ⟨?_, List.sorted_cons.mpr ⟨hy, hys⟩⟩
      intro b hb
      rcases List.mem_cons.mp hb with rfl | hb
      · exact le_of_lt h
      · exact le_trans (le_of_lt h) (hy b hb)
    · rw [insertV, if_neg h, List.sorted_cons]
      refine ⟨?_, ih hys⟩
      intro b hb
      rcases mem_insertV.mp hb with rfl | hb
      · exact le_of_not_lt h
      · exact hy b hb

/-- Value-level insertion of a fresh value preserves distinctness. -/
theorem nodup_insertV {v : Int} : ∀ {H : List Int},
    v ∉ H → H.Nodup → (insertV v H).Nodup := by
  intro H
  induction H with
  | nil => intro _ _; simp [insertV]
  | cons y ys ih =>
    intro hv hnd
    rw [List.nodup_cons] at hnd
    obtain ⟨hy, hys⟩ := hnd
    have hvy : v ≠ y := fun h => hv (h ▸ List.mem_cons_self y ys)
    have hvys : v ∉ ys := fun h => hv (List.mem_cons_of_mem y h)
    by_cases h : v < y
    · rw [insertV, if_pos h, List.nodup_cons]
      refine ⟨?_, List.nodup_cons.mpr ⟨hy, hys⟩⟩
      intro hc
      rcases List.mem_cons.mp hc with rfl | hc
      · exact hvy rfl
      · exact hvys hc
    · rw [insertV, if_neg h, List.nodup_cons]
      refine ⟨?_, ih hvys hys⟩
      intro hc
      rcases mem_insertV.mp hc with h' | hc'
      · exact hvy h'.symm
      · exact hy hc'

/-- The invariant is preserved by one value-level push of a fresh value. -/
theorem pushV_inv {K : Nat} {seen H : List Int} {v : Int}
    (inv : Inv K seen H) (hv : v ∉ seen) : Inv K (seen ++ [v]) (pushV K v H) := by
  obtain ⟨hs, hlen, hsub, hnd, hrej, hcomp⟩ := inv
  have hvH : v ∉ H := fun h => hv (hsub v h)
  have hlseen : (seen ++ [v]).length = seen.length + 1 := by simp
  by_cases hfull : H.length < K
  · -- below capacity: plain insertion, nothing has ever been rejected
    have hseenlt : seen.length < K := by omega
    rw [pushV.eq_def, if_pos hfull]
    refine ⟨sorted_insertV hs, ?_, ?_, nodup_insertV hvH hnd, ?_, ?_⟩
    · rw [length_insertV, hlseen]; omega
    · intro a ha
      rcases mem_insertV.mp ha with rfl | ha
      · exact List.mem_append_right _ (List.mem_singleton_self a)
      · exact List.mem_append_left _ (hsub a ha)
    · intro u hu hunin
      exfalso
      rcases List.mem_append.mp hu with hu | hu
      · exact hunin (mem_insertV.mpr (Or.inr (hcomp hseenlt u hu)))
      · exact hunin (mem_insertV.mpr (Or.inl (List.mem_singleton.mp hu)))
    · intro _ u hu
      rcases List.mem_append.mp hu with hu | hu
      · exact mem_insertV.mpr (Or.inr (hcomp hseenlt u hu))
      · exact mem_insertV.mpr (Or.inl (List.mem_singleton.mp hu))
  · -- at capacity
    have hKseen : K ≤ seen.length := by omega
    have hnotlt : ¬ (seen ++ [v]).length < K := by rw [hlseen]; omega
    rw [pushV.eq_def, if_neg hfull]
    cases H with
    | nil =>
      have hK0 : K = 0 := by simp at hlen; omega
      refine ⟨List.sorted_nil, ?_, ?_, List.nodup_nil, ?_, ?_⟩
      · simp; omega
      · intro a ha; simp at ha
      · intro u _ _ w hw; simp at hw
      · intro hc; exact absurd hc hnotlt
    | cons m rest =>
      rw [List.sorted_cons] at hs
      obtain ⟨hm, hrest_s⟩ := hs
      rw [List.nodup_cons] at hnd
      obtain ⟨hmr, hrest_nd⟩ := hnd
      show Inv K (seen ++ [v]) (if m < v then insertV v rest else m :: rest)
      by_cases hlt : m < v
      · -- evict the minimum, insert the new value
        rw [if_pos hlt]
        have hvrest : v ∉ rest := fun h => hvH (List.mem_cons_of_mem m h)
        refine ⟨sorted_insertV hrest_s, ?_, ?_, nodup_insertV hvrest hrest_nd, ?_, ?_⟩
        · rw [length_insertV, hlseen]
          simp at hlen
          omega
        · intro a ha
          rcases mem_insertV.mp ha with rfl | ha
          · exact List.mem_append_right _ (List.mem_singleton_self a)
          · exact List.mem_append_left _ (hsub a (List.mem_cons_of_mem m ha))
        · intro u hu hunin
          rcases List.mem_append.mp hu with hu | hu
          · by_cases hum : u = m
            · subst hum
              intro w hw
              rcases mem_insertV.mp hw with rfl | hw
              · exact hlt
              · exact lt_of_le_of_ne (hm w hw) (fun he => hmr (he ▸ hw))
            · have huH : u ∉ m :: rest := by
                intro hc
                rcases List.mem_cons.mp hc with rfl | hc
                · exact hum rfl
                · exact hunin (mem_insertV.mpr (Or.inr hc))
              have hall := hrej u hu huH
              intro w hw
              rcases mem_insertV.mp hw with rfl | hw
              · exact lt_trans (hall m (List.mem_cons_self m rest)) hlt
              · exact hall w (List.mem_cons_of_mem m hw)
          · exfalso
            exact hunin (mem_insertV.mpr (Or.inl (List.mem_singleton.mp hu)))
        · intro hc; exact absurd hc hnotlt
      · -- reject the new value: the selector is unchanged
        rw [if_neg hlt]
        refine ⟨List.sorted_cons.mpr ⟨hm, hrest_s⟩, ?_, ?_,
          List.nodup_cons.mpr ⟨hmr, hrest_nd⟩, ?_, ?_⟩
        · rw [hlseen]; simp at hlen ⊢; omega
        · intro a ha; exact List.mem_append_left _ (hsub a ha)
        · intro u hu hunin
          rcases List.mem_append.mp hu with hu | hu
          · exact hrej u hu hunin
          · have huv : u = v := List.mem_singleton.mp hu
            subst huv
            intro w hw
            have hneq : u ≠ w := fun he => hv (he ▸ hsub w hw)
            have hle : u ≤ w := by
              rcases List.mem_cons.mp hw with rfl | hw
              · exact le_of_not_lt hlt
              · exact le_trans (le_of_not_lt hlt) (hm w hw)
            exact lt_of_le_of_ne hle hneq
        · intro hc; exact absurd hc hnotlt

/-- The invariant holds at the start. -/
theorem inv_nil (K : Nat) : Inv K [] [] := by
  refine ⟨List.sorted_nil, by simp, ?_, List.nodup_nil, ?_, ?_⟩
  · intro a ha; simp at ha
  · intro u hu; simp at hu
  · intro _ u hu; simp at hu

/-- The invariant is preserved by a whole stream of distinct pushes. -/
theorem foldV_inv (K : Nat) : ∀ (vs seen H : List Int), Inv K seen H →
    (seen ++ vs).Nodup →
    Inv K (seen ++ vs) (vs.foldl (fun H v => pushV K v H) H) := by
  intro vs
  induction vs with
  | nil => intro seen H inv _; simpa using inv
  | cons v vs' ih =>
    intro seen H inv hnd
    have hv : v ∉ seen := fun hc =>
      (List.nodup_append.mp hnd).2.2 hc (List.mem_cons_self v vs')
    have inv' := pushV_inv inv hv
    have hnd' : ((seen ++ [v]) ++ vs').Nodup := by
      simpa [List.append_assoc] using hnd
    have hres := ih (seen ++ [v]) (pushV K v H) inv' hnd'
    rw [List.foldl_cons]
    simpa [List.append_assoc] using hres

/-- The selector-level stream projects onto the value-level stream. -/
theorem heldValues_offerAll (K : Nat) (vs : List Int) :
    heldValues (offerAll K vs) = offerAllV K vs ∧ (offerAll K vs).capacity = K := by
  suffices hgen : ∀ (s : Top_K_and_Which Nat), s.capacity = K →
      heldValues (vs.foldl (fun s v => s.push v 0) s) =
        vs.foldl (fun H v => pushV K v H) (heldValues s) ∧
      (vs.foldl (fun s v => s.push v 0) s).capacity = K by
    exact hgen { capacity := K, list := [] } rfl
  induction vs with
  | nil => intro s hc; exact ⟨rfl, hc⟩
  | cons v vs' ih =>
    intro s hc
    rw [List.foldl_cons, List.foldl_cons]
    have h1 := heldValues_push s v 0
    rw [hc] at h1
    obtain ⟨ha, hb⟩ := ih (s.push v 0) ((capacity_push s v 0).trans hc)
    exact ⟨by rw [ha, h1], hb⟩

/-- The invariant holds for the whole distinct stream. -/
theorem offerAllV_inv (K : Nat) (vs : List Int) (hnd : vs.Nodup) :
    Inv K vs (offerAllV K vs) := by
  have := foldV_inv K vs [] [] (inv_nil K) (by simpa using hnd)
  simpa [offerAllV] using this

/-- C1: for capacity `K ≥ 1` and a stream of `N ≥ K` pairwise-distinct
offers, the selector ends holding exactly the `K` largest values seen; once
`K` items are held the admission threshold `next_to_pop` equals the minimum
held value; while fewer than `K` items are held it is absent; and pushing a
value not exceeding the minimum of a full selector leaves it unchanged. -/
theorem top_k_correct (K : Nat) (vs : List Int) (hK : 1 ≤ K)
    (hnd : vs.Nodup) (hlen : K ≤ vs.length) :
    ((heldValues (offerAll K vs)).length = K ∧
      (heldValues (offerAll K vs)).Nodup ∧
      (∀ v ∈ heldValues (offerAll K vs), v ∈ vs) ∧
      (∀ u ∈ vs, u ∉ heldValues (offerAll K vs) →
        ∀ w ∈ heldValues (offerAll K vs), u < w)) ∧
    (∃ h, (offerAll K vs).next_to_pop = some h ∧
      h ∈ heldValues (offerAll K vs) ∧
      ∀ w ∈ heldValues (offerAll K vs), h ≤ w) ∧
    (∀ j, j < K → (offerAll K (vs.take j)).next_to_pop = none) ∧
    (∀ (t : Top_K_and_Which Nat) (v : Int) (w : Nat),
      ¬ t.list.length < t.capacity → (∀ x ∈ t.list, v ≤ x.value) →
      t.push v w = t) := by
  obtain ⟨hval, hcap⟩ := heldValues_offerAll K vs
  obtain ⟨hs, hlen', hsub, hnodup, hrej, hcomp⟩ := offerAllV_inv K vs hnd
  have hHlen : (offerAllV K vs).length = K := by omega
  have hllen : (offerAll K vs).list.length = K := by
    have : (heldValues (offerAll K vs)).length = (offerAll K vs).list.length :=
      List.length_map _ _
    rw [hval, hHlen] at this
    omega
  refine ⟨⟨by rw [hval]; exact hHlen, by rw [hval]; exact hnodup,
    by rw [hval]; exact hsub, by rw [hval]; exact hrej⟩, ?_, ?_, ?_⟩
  · -- threshold equals the minimum held value
    have hne : offerAllV K vs ≠ [] := by
      intro hc; rw [hc] at hHlen; simp at hHlen; omega
    obtain ⟨h0, t, hht⟩ := List.exists_cons_of_ne_nil hne
    refine ⟨h0, ?_, ?_, ?_⟩
    · unfold Top_K_and_Which.next_to_pop
      rw [if_neg (by rw [hllen, hcap]; omega)]
      have hh : (offerAll K vs).list.head?.map Value_and_Which.value
          = (heldValues (offerAll K vs)).head? := by
        rw [heldValues, List.head?_map]
      rw [hh, hval, hht]
      rfl
    · rw [hval, hht]; exact List.mem_cons_self _ _
    · intro w hw
      rw [hval, hht] at hw
      rw [hht, List.sorted_cons] at hs
      rcases List.mem_cons.mp hw with rfl | hw
      · exact le_refl w
      · exact hs.1 w hw
  · -- absent threshold while fewer than K items are held
    intro j hj
    obtain ⟨hvalj, hcapj⟩ := heldValues_offerAll K (vs.take j)
    have hndj : (vs.take j).Nodup := hnd.sublist (List.take_sublist j vs)
    obtain ⟨_, hlenj, _, _, _, _⟩ := offerAllV_inv K (vs.take j) hndj
    have htl : (vs.take j).length ≤ j := by
      rw [List.length_take]; omega
    have hj2 : (offerAll K (vs.take j)).list.length < K := by
      have : (heldValues (offerAll K (vs.take j))).length
          = (offerAll K (vs.take j)).list.length := List.length_map _ _
      rw [hvalj] at this
      omega
    unfold Top_K_and_Which.next_to_pop
    rw [if_pos (by rw [hcapj]; exact hj2)]
  · -- a full selector rejects any value not above its minimum
    intro t v w hfull hmin
    unfold Top_K_and_Which.push
    rw [if_neg hfull]
    cases hl : t.list with
    | nil => simp
    | cons m rest =>
      have hmv : ¬ m.value < v :=
        not_lt.mpr (hmin m (hl ▸ List.mem_cons_self m rest))
      simp [hmv]

/-- Witness for C1 at capacity `2` and the stream `[3, 1, 2]`. -/
theorem top_k_correct_witness :
    ((heldValues (offerAll 2 [3, 1, 2])).length = 2 ∧
      (heldValues (offerAll 2 [3, 1, 2])).Nodup ∧
      (∀ v ∈ heldValues (offerAll 2 [3, 1, 2]), v ∈ [3, 1, 2]) ∧
      (∀ u ∈ [3, 1, 2], u ∉ heldValues (offerAll 2 [3, 1, 2]) →
        ∀ w ∈ heldValues (offerAll 2 [3, 1, 2]), u < w)) ∧
    (∃ h, (offerAll 2 [3, 1, 2]).next_to_pop = some h ∧
      h ∈ heldValues (offerAll 2 [3, 1, 2]) ∧
      ∀ w ∈ heldValues (offerAll 2 [3, 1, 2]), h ≤ w) ∧
    (∀ j, j < 2 → (offerAll 2 ([3, 1, 2].take j)).next_to_pop = none) ∧
    (∀ (t : Top_K_and_Which Nat) (v : Int) (w : Nat),
      ¬ t.list.length < t.capacity → (∀ x ∈ t.list, v ≤ x.value) →
      t.push v w = t) :=
  top_k_correct 2 [3, 1, 2] (by decide) (by decide) (by decide)

end Atree

namespace Atree

/-! Theorems for claims C9, C10 and C8. -/

/-- C9: an `OSError` while listing a directory is a soft failure: the
directory returns with zero children, aggregates equal to its own
non-recursive stats, an untouched selection state, and the walk continues —
the result is observably identical to gathering the same directory with an
empty listing, never a fatal abort. -/
theorem listing_failure_soft (cfg : Config) (level : Nat) (e : DirEntry)
    (st : GState) :
    gatherDir cfg level e none st =
      .ok (initAgg cfg e, [],
        { st with levelReached := max level st.levelReached }) ∧
    gatherDir cfg level e none st = gatherDir cfg level e (some []) st ∧
    (initAgg cfg e).fcount = 0 ∧ (initAgg cfg e).dcount = 0 ∧
    (initAgg cfg e).blines = none ∧ (initAgg cfg e).rlines = none ∧
    (initAgg cfg e).bsize = some e.size ∧ (initAgg cfg e).rsize = some e.size ∧
    (initAgg cfg e).batime = some e.atime ∧
    (initAgg cfg e).bbtime = some e.btime ∧
    (initAgg cfg e).bctime = some e.ctime ∧
    (initAgg cfg e).bmtime = some e.mtime := by
  have h1 : gatherDir cfg level e none st =
      .ok (initAgg cfg e, [],
        { st with levelReached := max level st.levelReached }) := by
    simp [gatherDir]
  have h2 : gatherDir cfg level e (some []) st =
      .ok (initAgg cfg e, [],
        { st with levelReached := max level st.levelReached }) := by
    simp [gatherDir, gatherFiles, gatherDirs]
  refine ⟨h1, h1.trans h2.symm, ?_⟩
  cases hm : cfg.topMode <;> simp [initAgg, truncAgg, hm]

/-- C10: in top mode a file whose ranking-metric value is absent is never
offered to the selector and never linked, even while the selector is below
capacity and the threshold is still absent: the skip test
`le(val, threshold)` holds whenever `val` is absent, whatever the
threshold. -/
theorem absent_metric_skip (cfg : Config) (m : Metric)
    (acc : Agg × List ResNode × GState) (f : FileEntry)
    (hm : cfg.topMode = some m) (hv : f.fval m = none) :
    fileStep cfg acc f = acc ∧ (∀ t : Option Int, le none t = true) := by
  constructor
  · obtain ⟨agg, ch, st⟩ := acc
    simp [fileStep, hm, hv]
  · intro t
    cases t <;> rfl

/-- Witness for C10: a file without a line count, in lines top mode, against
an empty selector whose threshold is still absent. -/
theorem absent_metric_skip_witness :
    fileStep cfgTopLines (truncAgg (mkDir "r" 1), [], initState 1) (mkFile "a" 5)
        = (truncAgg (mkDir "r" 1), [], initState 1) ∧
    (∀ t : Option Int, le none t = true) :=
  absent_metric_skip cfgTopLines Metric.lines
    (truncAgg (mkDir "r" 1), [], initState 1) (mkFile "a" 5) rfl rfl

/-- C8: a non-link subdirectory that fails the post-filter, or that has zero
descendant files and zero descendant directories while `always_show_dirs` is
off, is pruned entirely: `linkDir` leaves the parent's aggregates, children
and selection state unchanged. -/
theorem dir_pruning (cfg : Config) (acc : Agg × List ResNode × GState)
    (d : DirEntry) (ign : Bool) (da : Agg) (dch : List ResNode)
    (h : cfg.dpost (ResNode.dir d ign da dch) = false ∨
      (cfg.alwaysShowDirs = false ∧ da.fcount = 0 ∧ da.dcount = 0)) :
    linkDir cfg acc d ign da dch = .ok acc := by
  obtain ⟨agg, ch, st⟩ := acc
  rcases h with h | ⟨h1, h2, h3⟩
  · simp [linkDir, h]
  · cases hd : cfg.dpost (ResNode.dir d ign da dch) with
    | false => simp [linkDir, hd]
    | true => simp [linkDir, hd, h1, h2, h3]

/-- Witness for C8: a rejecting post-filter prunes a concrete child. -/
theorem dir_pruning_witness :
    linkDir cfgNoPost (truncAgg (mkDir "r" 1), [], initState 1) (mkDir "s" 2)
        false (truncAgg (mkDir "s" 2)) [] =
      .ok (truncAgg (mkDir "r" 1), [], initState 1) :=
  dir_pruning cfgNoPost (truncAgg (mkDir "r" 1), [], initState 1) (mkDir "s" 2)
    false (truncAgg (mkDir "s" 2)) [] (Or.inl rfl)

end Atree

namespace Atree

/-! Helper lemmas about the shapes of children lists, leading to C7 and C4. -/

/-- A file-loop iteration either leaves the children unchanged or appends
the file node. -/
theorem fileStep_children (cfg : Config) (agg : Agg) (ch : List ResNode)
    (st : GState) (f : FileEntry) :
    (fileStep cfg (agg, ch, st) f).2.1 = ch ∨
    (fileStep cfg (agg, ch, st) f).2.1 = ch ++ [ResNode.file f] := by
  cases hm : cfg.topMode with
  | none => exact Or.inr (by simp [fileStep, hm, linkFile])
  | some m =>
    cases hv : f.fval m with
    | none => exact Or.inl (by simp [fileStep, hm, hv])
    | some v =>
      by_cases hle : le (some v) st.heap.next_to_pop = true
      · exact Or.inl (by simp [fileStep, hm, hv, hle])
      · exact Or.inr (by simp [fileStep, hm, hv, hle, linkFile])

/-- The file loop adds no directory node to the children. -/
theorem gatherFiles_dir_mem (cfg : Config) :
    ∀ (entries : List FSTree) (acc : Agg × List ResNode × GState)
      (d : DirEntry) (ig : Bool) (a : Agg) (c : List ResNode),
      ResNode.dir d ig a c ∈ (gatherFiles cfg acc entries).2.1 →
      ResNode.dir d ig a c ∈ acc.2.1 := by
  intro entries
  induction entries with
  | nil =>
    intro acc d ig a c h
    simpa [gatherFiles] using h
  | cons t ts ih =>
    intro acc d ig a c h
    cases t with
    | dir d' dl =>
      exact ih acc d ig a c (by simpa [gatherFiles] using h)
    | file f =>
      obtain ⟨agg, ch, st⟩ := acc
      have h' := ih _ d ig a c (by simpa [gatherFiles] using h)
      by_cases hf : cfg.fpred f = true
      · rw [if_pos hf] at h'
        rcases fileStep_children cfg agg ch st f with he | he
        · rwa [he] at h'
        · rw [he] at h'
          rcases List.mem_append.mp h' with h'' | h''
          · exact h''
          · exact absurd (List.mem_singleton.mp h'') (by simp)
      · rwa [if_neg hf] at h'

/-- `linkDir` either leaves the children unchanged or appends exactly the
offered directory node. -/
theorem linkDir_children (cfg : Config) (agg : Agg) (ch : List ResNode)
    (st : GState) (d : DirEntry) (ign : Bool) (da : Agg) (dch : List ResNode)
    (acc' : Agg × List ResNode × GState)
    (hres : linkDir cfg (agg, ch, st) d ign da dch = .ok acc') :
    acc'.2.1 = ch ∨ acc'.2.1 = ch ++ [ResNode.dir d ign da dch] := by
  simp only [linkDir] at hres
  split at hres
  · injection hres with h
    subst h
    exact Or.inl rfl
  · split at hres
    · injection hres with h
      subst h
      exact Or.inl rfl
    · split at hres
      · split at hres
        · exact Except.noConfusion hres
        · split at hres
          · injection hres with h
            subst h
            exact Or.inl rfl
          · injection hres with h
            subst h
            exact Or.inr rfl
      · injection hres with h
        subst h
        exact Or.inr rfl

/-- Past the access level, one directory-loop iteration keeps the
children truncated-only. -/
theorem dirStep_trunc (cfg : Config) (level : Nat)
    (acc : Agg × List ResNode × GState) (d : DirEntry)
    (dl : Option (List FSTree)) (acc' : Agg × List ResNode × GState)
    (hlev : cfg.accessLevel ≤ level)
    (hinv : TruncatedOnly acc.2.1)
    (hres : dirStep cfg level acc d dl = .ok acc') :
    TruncatedOnly acc'.2.1 := by
  obtain ⟨agg, ch, st⟩ := acc
  simp only [dirStep] at hres
  split at hres
  · -- a link to a directory: at most a linkDir node is appended
    injection hres with h
    subst h
    by_cases ha : cfg.alwaysShowDirs = true
    · rw [if_pos ha]
      intro d0 ig a c hm
      rcases List.mem_append.mp hm with hm | hm
      · exact hinv d0 ig a c hm
      · exact absurd (List.mem_singleton.mp hm) (by simp)
    · rw [if_neg ha]
      exact hinv
  · split at hres
    next hlt => exact absurd hlt (by omega)
    next hge =>
      rcases linkDir_children cfg agg ch st d true (truncAgg d) [] acc' hres
        with he | he
      · rw [he]
        exact hinv
      · rw [he]
        intro d0 ig a c hm
        rcases List.mem_append.mp hm with hm | hm
        · exact hinv d0 ig a c hm
        · have heq := List.mem_singleton.mp hm
          injection heq with e1 e2 e3 e4
          subst e1
          subst e2
          subst e3
          subst e4
          exact ⟨rfl, rfl, rfl⟩

/-- Past the access level, the whole directory loop keeps the children
truncated-only. -/
theorem gatherDirs_trunc (cfg : Config) (level : Nat)
    (hlev : cfg.accessLevel ≤ level) :
    ∀ (ts : List FSTree) (acc acc' : Agg × List ResNode × GState),
      TruncatedOnly acc.2.1 →
      gatherDirs cfg level acc ts = .ok acc' →
      TruncatedOnly acc'.2.1 := by
  intro ts
  induction ts with
  | nil =>
    intro acc acc' hinv hres
    simp only [gatherDirs] at hres
    injection hres with h
    subst h
    exact hinv
  | cons t ts' ih =>
    intro acc acc' hinv hres
    cases t with
    | file f =>
      exact ih acc acc' hinv (by simpa [gatherDirs] using hres)
    | dir d dl =>
      simp only [gatherDirs] at hres
      by_cases hp : cfg.dpred d = true
      · rw [if_pos hp] at hres
        cases hstep : dirStep cfg level acc d dl with
        | error err =>
          rw [hstep] at hres
          exact Except.noConfusion hres
        | ok acc1 =>
          rw [hstep] at hres
          exact ih acc1 acc'
            (dirStep_trunc cfg level acc d dl acc1 hlev hinv hstep) hres
      · rw [if_neg hp] at hres
        exact ih acc acc' hinv hres

/-- C7: a directory gathered at a level at or past the configured access
level records its own stats but lists nothing: every non-link directory in
its children is marked truncated (`ignore`), has zero children, zero
descendant counts, its own size as best and total size, its own timestamps
as best timestamps, and absent line aggregates. -/
theorem depth_truncation (cfg : Config) (level : Nat) (e : DirEntry)
    (listing : Option (List FSTree)) (st : GState)
    (agg : Agg) (ch : List ResNode) (st' : GState)
    (hlev : cfg.accessLevel ≤ level)
    (hres : gatherDir cfg level e listing st = .ok (agg, ch, st')) :
    ∀ d ig a c, ResNode.dir d ig a c ∈ ch →
      ig = true ∧ c = [] ∧ a.fcount = 0 ∧ a.dcount = 0 ∧
      a.blines = none ∧ a.rlines = none ∧
      a.bsize = some d.size ∧ a.rsize = some d.size ∧
      a.batime = some d.atime ∧ a.bbtime = some d.btime ∧
      a.bctime = some d.ctime ∧ a.bmtime = some d.mtime := by
  have htr : TruncatedOnly ch := by
    cases listing with
    | none =>
      simp only [gatherDir] at hres
      injection hres with h
      have hch : ch = [] := by
        have := congrArg (fun x : Agg × List ResNode × GState => x.2.1) h
        simpa using this.symm
      rw [hch]
      intro d0 ig a c hm
      simp at hm
    | some entries =>
      simp only [gatherDir] at hres
      have hpre : TruncatedOnly
          (gatherFiles cfg (initAgg cfg e, [],
            { st with levelReached := max level st.levelReached }) entries).2.1 := by
        intro d0 ig a c hm
        have hmem := gatherFiles_dir_mem cfg entries _ d0 ig a c hm
        simp at hmem
      exact gatherDirs_trunc cfg level hlev entries _ (agg, ch, st') hpre hres
  intro d ig a c hm
  obtain ⟨hig, hc, ha⟩ := htr d ig a c hm
  subst ha
  exact ⟨hig, hc, rfl, rfl, rfl, rfl, rfl, rfl, rfl, rfl, rfl, rfl⟩

/-- Witness for C7: access level 1, a root with one subdirectory; the
subdirectory comes back truncated with its own stats. -/
theorem depth_truncation_witness :
    true = true ∧ ([] : List ResNode) = [] ∧
    (truncAgg (mkDir "s" 5)).fcount = 0 ∧
    (truncAgg (mkDir "s" 5)).dcount = 0 ∧
    (truncAgg (mkDir "s" 5)).blines = none ∧
    (truncAgg (mkDir "s" 5)).rlines = none ∧
    (truncAgg (mkDir "s" 5)).bsize = some (mkDir "s" 5).size ∧
    (truncAgg (mkDir "s" 5)).rsize = some (mkDir "s" 5).size ∧
    (truncAgg (mkDir "s" 5)).batime = some (mkDir "s" 5).atime ∧
    (truncAgg (mkDir "s" 5)).bbtime = some (mkDir "s" 5).btime ∧
    (truncAgg (mkDir "s" 5)).bctime = some (mkDir "s" 5).ctime ∧
    (truncAgg (mkDir "s" 5)).bmtime = some (mkDir "s" 5).mtime :=
  depth_truncation cfgDepth1 1 (mkDir "r" 1)
    (some [FSTree.dir (mkDir "s" 5) (some [])]) (initState 1)
    (foldDirAgg (initAgg cfgDepth1 (mkDir "r" 1)) (truncAgg (mkDir "s" 5)))
    [ResNode.dir (mkDir "s" 5) true (truncAgg (mkDir "s" 5)) []]
    { initState 1 with levelReached := 1 }
    (le_refl 1)
    (by simp [gatherDir, gatherDirs, gatherFiles, dirStep, linkDir, initAgg,
      truncAgg, foldDirAgg, cfgDepth1, cfgPlain, mkDir, initState])
    (mkDir "s" 5) true (truncAgg (mkDir "s" 5)) []
    (List.mem_singleton_self _)

end Atree

namespace Atree

/-! Theorems for claims C4 and C2. -/

/-- C4 amended: in top mode every candidate is gated before linking, but
with different strictness for files and directories.  A file is gated by
`le(val, next_to_pop)` and skipped (no push, no link, no contribution to any
aggregate, no state change) unless its value strictly beats the threshold.
A directory is gated by `lt(top_val, next_to_pop)` and is skipped only when
its value is strictly below the threshold, so a directory whose value equals
the threshold is still linked and still contributes. -/
theorem top_gate_skip (cfg : Config) (m : Metric)
    (acc : Agg × List ResNode × GState) (f : FileEntry) (d : DirEntry)
    (da : Agg) (dch : List ResNode) (hm : cfg.topMode = some m) :
    (le (f.fval m) acc.2.2.heap.next_to_pop = true → fileStep cfg acc f = acc) ∧
    (lt da.topVal acc.2.2.heap.next_to_pop = true →
      linkDir cfg acc d false da dch = .ok acc) := by
  obtain ⟨agg, ch, st⟩ := acc
  constructor
  · intro hle
    cases hv : f.fval m with
    | none => simp [fileStep, hm, hv]
    | some v =>
      rw [hv] at hle
      simp [fileStep, hm, hv, hle]
  · intro hlt
    by_cases hd : cfg.dpost (ResNode.dir d false da dch) = false
    · simp [linkDir, hd]
    · by_cases hp : cfg.alwaysShowDirs = false ∧ da.fcount = 0 ∧ da.dcount = 0
      · simp [linkDir, hp]
      · simp [linkDir, hd, hp, hm, hlt]

/-- Witness for C4's amended theorem: a full capacity-1 selector holding 5
rejects a file of value 3 and a directory whose aggregated value is
absent. -/
theorem top_gate_skip_witness :
    fileStep cfgTop accFull (mkFile "a" 3) = accFull ∧
    linkDir cfgTop accFull (mkDir "s" 4) false (truncAgg (mkDir "s" 4)) []
      = .ok accFull :=
  ⟨(top_gate_skip cfgTop Metric.size accFull (mkFile "a" 3) (mkDir "s" 4)
      (truncAgg (mkDir "s" 4)) [] rfl).1 (by decide),
   (top_gate_skip cfgTop Metric.size accFull (mkFile "a" 3) (mkDir "s" 4)
      (truncAgg (mkDir "s" 4)) [] rfl).2 (by decide)⟩

/-- C4 counterexample: size top mode with `K = 1`.  The root (own size 1)
lists file `a` of size 5 — after the file loop the admission threshold is
5 — and subdirectory `s` of own size 5, whose aggregated `top_val` is 5,
equal to the threshold and hence not strictly greater.  The claim says such
a candidate is neither linked nor contributes; but the directory gate uses
`lt`, so `s` IS linked into the root's children and DOES contribute to the
root's aggregates: `dcount = 1`, two children, `rsize = 1 + 5 + 5 = 11`. -/
theorem top_gate_dir_cex :
    Except.map
        (fun r : Agg × List ResNode × GState =>
          (r.1.dcount, r.2.1.length, r.1.rsize))
        (gatherDir cfgTop 1 (mkDir "r" 1)
          (some [FSTree.file (mkFile "a" 5), FSTree.dir (mkDir "s" 5) (some [])])
          (initState 1))
      = .ok (1, 2, some 11) ∧
    (gatherFiles cfgTop (initAgg cfgTop (mkDir "r" 1), [], initState 1)
        [FSTree.file (mkFile "a" 5), FSTree.dir (mkDir "s" 5) (some [])]
      ).2.2.heap.next_to_pop = some 5 ∧
    (initAgg cfgTop (mkDir "s" 5)).topVal = some 5 := by
  refine ⟨?_, by decide, by decide⟩
  simp [gatherDir, gatherDirs, gatherFiles, dirStep, linkDir, fileStep,
    linkFile, foldDirAgg, initAgg, truncAgg, dupStep, cfgTop, cfgPlain,
    mkDir, mkFile, initState, Top_K_and_Which.next_to_pop,
    Top_K_and_Which.push, heapInsert, le, lt, max_of, add, Agg.bval,
    FileEntry.fval, Except.map]

/-- `max_of` on two present values is the present maximum. -/
theorem max_of_some_some (x y : Int) :
    max_of (some x) (some y) = some (max x y) := by
  rw [max_of]
  by_cases h : x < y
  · simp [lt, h, max_eq_right (le_of_lt h)]
  · simp [lt, h, max_eq_left (le_of_not_lt h)]

/-- Outside top mode, the file loop appends exactly the kept files to the
children, adds their sizes to `rsize`, and max-folds their sizes into
`bsize`. -/
theorem gatherFiles_no_top (cfg : Config) (hm : cfg.topMode = none) :
    ∀ (entries : List FSTree) (agg : Agg) (ch : List ResNode) (st : GState)
      (r b : Int), agg.rsize = some r → agg.bsize = some b →
      (gatherFiles cfg (agg, ch, st) entries).2.1
          = ch ++ (keptFiles cfg entries).map ResNode.file ∧
      (gatherFiles cfg (agg, ch, st) entries).1.rsize
          = some (r + ((keptFiles cfg entries).map FileEntry.size).sum) ∧
      (gatherFiles cfg (agg, ch, st) entries).1.bsize
          = some ((keptFiles cfg entries).foldl (fun acc f => max f.size acc) b) := by
  intro entries
  induction entries with
  | nil =>
    intro agg ch st r b hr hb
    refine ⟨?_, ?_, ?_⟩ <;> simp [gatherFiles, keptFiles, hr, hb]
  | cons t ts ih =>
    intro agg ch st r b hr hb
    cases t with
    | dir d dl =>
      have hk : keptFiles cfg (FSTree.dir d dl :: ts) = keptFiles cfg ts := by
        simp [keptFiles]
      simp only [gatherFiles, hk]
      exact ih agg ch st r b hr hb
    | file f =>
      by_cases hf : cfg.fpred f = true
      · have hk : keptFiles cfg (FSTree.file f :: ts) = f :: keptFiles cfg ts := by
          simp [keptFiles, hf]
        have hstep : fileStep cfg (agg, ch, st) f = linkFile cfg agg ch st f := by
          simp [fileStep, hm]
        have hr' : (linkFile cfg agg ch st f).1.rsize = some (r + f.size) := by
          simp [linkFile, hr, add]
        have hb' : (linkFile cfg agg ch st f).1.bsize = some (max f.size b) := by
          simp [linkFile, hb, max_of_some_some]
        have hch : (linkFile cfg agg ch st f).2.1 = ch ++ [ResNode.file f] := rfl
        obtain ⟨hih1, hih2, hih3⟩ :=
          ih (linkFile cfg agg ch st f).1 (linkFile cfg agg ch st f).2.1
            (linkFile cfg agg ch st f).2.2 (r + f.size) (max f.size b) hr' hb'
        simp only [gatherFiles, if_pos hf, hstep]
        refine ⟨?_, ?_, ?_⟩
        · rw [hih1, hch, hk]
          simp [List.append_assoc]
        · rw [hih2, hk]
          simp only [List.map_cons, List.sum_cons]
          congr 1
          omega
        · rw [hih3, hk]
          rfl
      · have hk : keptFiles cfg (FSTree.file f :: ts) = keptFiles cfg ts := by
          simp [keptFiles, hf]
        simp only [gatherFiles, if_neg hf, hk]
        exact ih agg ch st r b hr hb

/-- A directory loop over a listing with no directory entries is the
identity. -/
theorem gatherDirs_all_files (cfg : Config) (level : Nat) :
    ∀ (entries : List FSTree) (acc : Agg × List ResNode × GState),
      (∀ t ∈ entries, ∃ f, t = FSTree.file f) →
      gatherDirs cfg level acc entries = .ok acc := by
  intro entries
  induction entries with
  | nil =>
    intro acc _
    simp [gatherDirs]
  | cons t ts ih =>
    intro acc hall
    obtain ⟨f, rfl⟩ := hall t (List.mem_cons_self t ts)
    simp only [gatherDirs]
    exact ih acc fun u hu => hall u (List.mem_cons_of_mem _ hu)

/-- C2 amended: outside top mode, a directory whose listing contains only
files ends with exactly the kept files as children; its total size `rsize`
is its OWN size plus the sum of the children's sizes, and its best size
`bsize` is the maximum of its own size and the children's sizes — both
always present.  In particular a childless directory gets its own size, not
an absent value, for both. -/
theorem gather_size_agg (cfg : Config) (level : Nat) (e : DirEntry)
    (entries : List FSTree) (st : GState)
    (hm : cfg.topMode = none)
    (hall : ∀ t ∈ entries, ∃ f, t = FSTree.file f) :
    ∃ agg ch st',
      gatherDir cfg level e (some entries) st = .ok (agg, ch, st') ∧
      ch = (keptFiles cfg entries).map ResNode.file ∧
      agg.rsize = some (e.size + ((keptFiles cfg entries).map FileEntry.size).sum) ∧
      agg.bsize = some ((keptFiles cfg entries).foldl
        (fun acc f => max f.size acc) e.size) ∧
      (entries = [] → agg.rsize = some e.size ∧ agg.bsize = some e.size) := by
  have hinit : initAgg cfg e = truncAgg e := by simp [initAgg, hm]
  have hr0 : (initAgg cfg e).rsize = some e.size := by rw [hinit]; rfl
  have hb0 : (initAgg cfg e).bsize = some e.size := by rw [hinit]; rfl
  obtain ⟨h1, h2, h3⟩ := gatherFiles_no_top cfg hm entries (initAgg cfg e) []
    { st with levelReached := max level st.levelReached } e.size e.size hr0 hb0
  refine ⟨(gatherFiles cfg (initAgg cfg e, [],
      { st with levelReached := max level st.levelReached }) entries).1,
    (gatherFiles cfg (initAgg cfg e, [],
      { st with levelReached := max level st.levelReached }) entries).2.1,
    (gatherFiles cfg (initAgg cfg e, [],
      { st with levelReached := max level st.levelReached }) entries).2.2,
    ?_, by simpa using h1, h2, h3, ?_⟩
  · simp only [gatherDir]
    exact gatherDirs_all_files cfg level entries _ hall
  · intro he
    subst he
    constructor
    · simpa [keptFiles] using h2
    · simpa [keptFiles] using h3

/-- C2 counterexample: a childless directory of size 7 ends with
`rsize = bsize = some 7`, not absent; and a directory of size 7 with file
children of sizes 10 and 20 ends with `rsize = some 37`, which includes the
directory's own size, not the claimed children-only sum 30. -/
theorem gather_size_agg_cex :
    Except.map (fun r : Agg × List ResNode × GState => (r.1.rsize, r.1.bsize))
        (gatherDir cfgPlain 1 (mkDir "r" 7) (some []) (initState 1))
      = .ok (some 7, some 7) ∧
    Except.map (fun r : Agg × List ResNode × GState => (r.1.rsize, r.1.bsize))
        (gatherDir cfgPlain 1 (mkDir "r" 7)
          (some [FSTree.file (mkFile "a" 10), FSTree.file (mkFile "b" 20)])
          (initState 1))
      = .ok (some 37, some 20) := by
  constructor <;>
    simp [gatherDir, gatherDirs, gatherFiles, fileStep, linkFile, dupStep,
      initAgg, truncAgg, cfgPlain, mkDir, mkFile, initState, max_of, lt, le,
      add, Except.map]

/-- Witness for C2's amended theorem: a size-7 directory with one size-10
file child. -/
theorem gather_size_agg_witness :
    ∃ agg ch st',
      gatherDir cfgPlain 1 (mkDir "r" 7) (some [FSTree.file (mkFile "a" 10)])
          (initState 1) = .ok (agg, ch, st') ∧
      ch = (keptFiles cfgPlain [FSTree.file (mkFile "a" 10)]).map ResNode.file ∧
      agg.rsize = some ((mkDir "r" 7).size +
        ((keptFiles cfgPlain [FSTree.file (mkFile "a" 10)]).map
          FileEntry.size).sum) ∧
      agg.bsize = some ((keptFiles cfgPlain [FSTree.file (mkFile "a" 10)]).foldl
        (fun acc f => max f.size acc) (mkDir "r" 7).size) ∧
      ([FSTree.file (mkFile "a" 10)] = ([] : List FSTree) →
        agg.rsize = some (mkDir "r" 7).size ∧
        agg.bsize = some (mkDir "r" 7).size) :=
  gather_size_agg cfgPlain 1 (mkDir "r" 7) [FSTree.file (mkFile "a" 10)]
    (initState 1) rfl
    (by intro t ht; simp at ht; exact ⟨mkFile "a" 10, ht⟩)

end Atree

namespace Atree

/-! Lemmas about the duplicate map, leading to claim C6. -/

/-- Looking up the key just set yields the new value. -/
theorem mapLookup_mapSet_self (m : List (Option String × List FileEntry))
    (k : Option String) (v : List FileEntry) :
    mapLookup (mapSet m k v) k = some v := by
  induction m with
  | nil => simp [mapSet, mapLookup]
  | cons p rest ih =>
    obtain ⟨k', v'⟩ := p
    by_cases h : k' = k
    · simp [mapSet, h, mapLookup]
    · simp [mapSet, h, mapLookup, ih]

/-- Setting one key leaves the lookup of any other key unchanged. -/
theorem mapLookup_mapSet_ne (m : List (Option String × List FileEntry))
    (k q : Option String) (v : List FileEntry) (hne : q ≠ k) :
    mapLookup (mapSet m k v) q = mapLookup m q := by
  have hkq : ¬ (k = q) := fun h => hne h.symm
  induction m with
  | nil => simp [mapSet, mapLookup, hkq]
  | cons p rest ih =>
    obtain ⟨k', v'⟩ := p
    by_cases h : k' = k
    · subst h
      simp [mapSet, mapLookup, hkq]
    · by_cases h2 : k' = q
      · simp [mapSet, h, mapLookup, h2, hne]
      · simp [mapSet, h, mapLookup, h2, ih]

/-- Appending to a present key extends its list. -/
theorem mapLookup_mapAppend_self (m : List (Option String × List FileEntry))
    (k : Option String) (f : FileEntry) (l : List FileEntry)
    (h : mapLookup m k = some l) :
    mapLookup (mapAppend m k f) k = some (l ++ [f]) := by
  induction m with
  | nil => simp [mapLookup] at h
  | cons p rest ih =>
    obtain ⟨k', v'⟩ := p
    by_cases hk : k' = k
    · rw [mapLookup, if_pos hk] at h
      have hv : v' = l := Option.some.inj h
      subst hv
      simp [mapAppend, hk, mapLookup]
    · rw [mapLookup, if_neg hk] at h
      simp [mapAppend, hk, mapLookup, ih h]

/-- Appending under one key leaves the lookup of any other key unchanged. -/
theorem mapLookup_mapAppend_ne (m : List (Option String × List FileEntry))
    (k q : Option String) (f : FileEntry) (hne : q ≠ k) :
    mapLookup (mapAppend m k f) q = mapLookup m q := by
  induction m with
  | nil => simp [mapAppend, mapLookup]
  | cons p rest ih =>
    obtain ⟨k', v'⟩ := p
    by_cases h : k' = k
    · subst h
      have : ¬ (k' = q) := fun h2 => hne h2.symm
      simp [mapAppend, mapLookup, this]
    · by_cases h2 : k' = q
      · simp [mapAppend, h, mapLookup, h2, hne]
      · simp [mapAppend, h, mapLookup, h2, ih]

/-- Membership after a set insertion. -/
theorem mem_setInsert (s : List String) (h0 h : String) :
    h ∈ setInsert s h0 ↔ h = h0 ∨ h ∈ s := by
  rw [setInsert]
  by_cases hm : h0 ∈ s
  · rw [if_pos hm]
    constructor
    · exact Or.inr
    · rintro (rfl | hh)
      · exact hm
      · exact hh
  · rw [if_neg hm]
    simp [or_comm]

/-- A list extended on the right is nonempty, hence a present map value. -/
theorem listToOpt_append (l : List FileEntry) (f : FileEntry) :
    listToOpt (l ++ [f]) = some (l ++ [f]) := by
  cases l <;> rfl

/-- A file the gate excludes (sentinel hash while `dup_nonempty`) leaves the
duplicate state untouched. -/
theorem dupStep_not_recorded (cfg : Config) (st : GState) (f : FileEntry)
    (h : dupRecorded cfg f = false) : dupStep cfg st f = st := by
  rw [dupRecorded, checksumOf] at h
  simp only [Bool.or_eq_false_iff, Bool.not_eq_false', decide_eq_false_iff_not,
    not_not] at h
  obtain ⟨hc, hd⟩ := h
  simp [dupStep, hc, hd]

/-- A file the gate admits runs the recording block. -/
theorem dupStep_recorded (cfg : Config) (st : GState) (f : FileEntry)
    (hdm : cfg.dupMode = true) (h : dupRecorded cfg f = true) :
    dupStep cfg st f =
      match compute_md5 cfg.hashFn f.content with
      | some h0 =>
        if h0 ≠ "" ∧ (mapLookup st.dupMap (some h0)).isSome then
          { st with
              dupMap := mapAppend st.dupMap (some h0) f
              dupSet := setInsert st.dupSet h0 }
        else { st with dupMap := mapSet st.dupMap (some h0) [f] }
      | none => { st with dupMap := mapSet st.dupMap none [f] } := by
  rw [dupRecorded, checksumOf] at h
  simp only [Bool.or_eq_true, decide_eq_true_eq, Bool.not_eq_true'] at h
  rw [dupStep]
  rw [if_pos hdm, if_pos h]

/-- The admitted recording block, when the checksum is a present hash. -/
theorem dupStep_recorded_some (cfg : Config) (st : GState) (f : FileEntry)
    (hdm : cfg.dupMode = true) (hrec : dupRecorded cfg f = true) (h0 : String)
    (hc : compute_md5 cfg.hashFn f.content = some h0) :
    dupStep cfg st f =
      if h0 ≠ "" ∧ (mapLookup st.dupMap (some h0)).isSome then
        { st with
            dupMap := mapAppend st.dupMap (some h0) f
            dupSet := setInsert st.dupSet h0 }
      else { st with dupMap := mapSet st.dupMap (some h0) [f] } := by
  rw [dupStep_recorded cfg st f hdm hrec, hc]

/-- The admitted recording block, when the checksum is absent (unreadable
file): the `None` key is overwritten with the singleton. -/
theorem dupStep_recorded_none (cfg : Config) (st : GState) (f : FileEntry)
    (hdm : cfg.dupMode = true) (hrec : dupRecorded cfg f = true)
    (hc : compute_md5 cfg.hashFn f.content = none) :
    dupStep cfg st f = { st with dupMap := mapSet st.dupMap none [f] } := by
  rw [dupStep_recorded cfg st f hdm hrec, hc]

/-- Invariant of folding the duplicate block over a stream: the map holds
exactly the group recorded so far under every nonempty hash, and the
duplicate set holds exactly the hashes with at least two recorded files. -/
theorem dupFold_inv (cfg : Config) (hdm : cfg.dupMode = true) :
    ∀ (fs done : List FileEntry) (st : GState),
      (∀ f ∈ fs, ∀ h : String, checksumOf cfg f = some h → h ≠ "") →
      (∀ h : String, h ≠ "" →
        mapLookup st.dupMap (some h) = listToOpt (dupGroup cfg done h)) →
      (∀ h : String, h ∈ st.dupSet ↔
        (h ≠ "" ∧ 2 ≤ (dupGroup cfg done h).length)) →
      (∀ h : String, h ≠ "" →
        mapLookup (dupFold cfg st fs).dupMap (some h)
          = listToOpt (dupGroup cfg (done ++ fs) h)) ∧
      (∀ h : String, h ∈ (dupFold cfg st fs).dupSet ↔
        (h ≠ "" ∧ 2 ≤ (dupGroup cfg (done ++ fs) h).length)) := by
  intro fs
  induction fs with
  | nil =>
    intro done st htr hmap hset
    constructor
    · intro h hne
      simpa [dupFold] using hmap h hne
    · intro h
      simpa [dupFold] using hset h
  | cons f fs' ih =>
    intro done st htr hmap hset
    have htr' : ∀ g ∈ fs', ∀ h : String, checksumOf cfg g = some h → h ≠ "" :=
      fun g hg => htr g (List.mem_cons_of_mem f hg)
    have hgrow : ∀ h : String, dupGroup cfg (done ++ [f]) h =
        dupGroup cfg done h ++
          (if dupRecorded cfg f && decide (checksumOf cfg f = some h)
            then [f] else []) := by
      intro h
      cases hb : (dupRecorded cfg f && decide (checksumOf cfg f = some h)) with
      | true => simp [dupGroup, List.filter_append, hb]
      | false => simp [dupGroup, List.filter_append, hb]
    have hmain : (∀ h : String, h ≠ "" →
        mapLookup (dupStep cfg st f).dupMap (some h)
          = listToOpt (dupGroup cfg (done ++ [f]) h)) ∧
        (∀ h : String, h ∈ (dupStep cfg st f).dupSet ↔
          (h ≠ "" ∧ 2 ≤ (dupGroup cfg (done ++ [f]) h).length)) := by
      by_cases hrec : dupRecorded cfg f = true
      · cases hc : compute_md5 cfg.hashFn f.content with
        | none =>
          rw [dupStep_recorded_none cfg st f hdm hrec hc]
          have hd : ∀ h : String, decide (checksumOf cfg f = some h) = false := by
            intro h
            simp [checksumOf, hc]
          constructor
          · intro h hne
            rw [mapLookup_mapSet_ne _ _ _ _ (by simp)]
            rw [hmap h hne, hgrow h]
            simp [hd h]
          · intro h
            rw [hgrow h]
            simp [hd h]
            exact hset h
        | some h0 =>
          rw [dupStep_recorded_some cfg st f hdm hrec h0 hc]
          have hc' : checksumOf cfg f = some h0 := by rw [checksumOf, hc]
          have hh0 : h0 ≠ "" := htr f (List.mem_cons_self f fs') h0 hc'
          have hdd : ∀ h : String, h ≠ h0 →
              decide (checksumOf cfg f = some h) = false := by
            intro h hh
            rw [hc']
            simp [Ne.symm hh]
          have hcnd : (dupRecorded cfg f &&
              decide (checksumOf cfg f = some h0)) = true := by
            simp [hrec, hc']
          by_cases hmem : (mapLookup st.dupMap (some h0)).isSome = true
          · rw [if_pos ⟨hh0, hmem⟩]
            obtain ⟨l, hl⟩ := Option.isSome_iff_exists.mp hmem
            have hgl : dupGroup cfg done h0 = l ∧ l ≠ [] := by
              have hmm := hmap h0 hh0
              rw [hl] at hmm
              cases hG : dupGroup cfg done h0 with
              | nil =>
                rw [hG] at hmm
                exact absurd hmm (by simp [listToOpt])
              | cons x xs =>
                rw [hG] at hmm
                have hlx : l = x :: xs := by simpa [listToOpt] using hmm
                exact ⟨hlx.symm, by rw [hlx]; simp⟩
            constructor
            · intro h hne
              by_cases hh : h = h0
              · subst hh
                rw [mapLookup_mapAppend_self _ _ _ l hl, hgrow h]
                rw [hgl.1]
                simp [hcnd, listToOpt_append]
              · rw [mapLookup_mapAppend_ne _ _ _ _ (by simp [hh])]
                rw [hmap h hne, hgrow h]
                simp [hdd h hh]
            · intro h
              rw [hgrow h]
              by_cases hh : h = h0
              · subst hh
                have hlen : 1 ≤ (dupGroup cfg done h).length := by
                  rw [hgl.1]
                  exact List.length_pos.mpr hgl.2
                simp [mem_setInsert, hcnd, hh0]
                omega
              · simp [mem_setInsert, hh, hdd h hh]
                exact hset h
          · have hnot : ¬ (h0 ≠ "" ∧ (mapLookup st.dupMap (some h0)).isSome) :=
              fun hcon => hmem (by simpa using hcon.2)
            rw [if_neg hnot]
            have hgnil : dupGroup cfg done h0 = [] := by
              have hmm := hmap h0 hh0
              cases hG : dupGroup cfg done h0 with
              | nil => rfl
              | cons x xs =>
                rw [hG] at hmm
                have hsome : (mapLookup st.dupMap (some h0)).isSome = true := by
                  rw [hmm]; rfl
                exact absurd hsome hmem
            constructor
            · intro h hne
              by_cases hh : h = h0
              · subst hh
                rw [mapLookup_mapSet_self, hgrow h, hgnil]
                simp [hcnd, listToOpt]
              · rw [mapLookup_mapSet_ne _ _ _ _ (by simp [hh])]
                rw [hmap h hne, hgrow h]
                simp [hdd h hh]
            · intro h
              rw [hgrow h]
              by_cases hh : h = h0
              · subst hh
                constructor
                · intro hmem'
                  have := (hset h).mp hmem'
                  rw [hgnil] at this
                  simp at this
                · rintro ⟨_, hlen⟩
                  rw [hgnil] at hlen
                  simp [hcnd] at hlen
              · simp [hdd h hh]
                exact hset h
      · have hrecf : dupRecorded cfg f = false := by
          revert hrec
          cases dupRecorded cfg f <;> simp
        have hst : dupStep cfg st f = st := dupStep_not_recorded cfg st f hrecf
        rw [hst]
        constructor
        · intro h hne
          rw [hmap h hne, hgrow h]
          simp [hrecf]
        · intro h
          rw [hgrow h]
          simp [hrecf]
          exact hset h
    obtain ⟨hmap', hset'⟩ := hmain
    have hres := ih (done ++ [f]) (dupStep cfg st f) htr' hmap' hset'
    constructor
    · intro h hne
      have := hres.1 h hne
      simpa [dupFold, List.append_assoc] using this
    · intro h
      have := hres.2 h
      simpa [dupFold, List.append_assoc] using this

end Atree

namespace Atree

/-- A present checksum comes from present content. -/
theorem checksum_content (cfg : Config) (f : FileEntry) (hh : String)
    (hk : checksumOf cfg f = some hh) : ∃ c, f.content = some c := by
  rw [checksumOf] at hk
  cases hc : f.content with
  | none =>
    rw [hc] at hk
    exact absurd hk (by simp [compute_md5])
  | some c => exact ⟨c, rfl⟩

/-- Two files with the same present checksum have the same content, for an
injective digest that never outputs the sentinel. -/
theorem checksum_same_content (cfg : Config)
    (hnt : ∀ c : String, cfg.hashFn c ≠ EMPTY_FILE_MD5_HASH)
    (hinj : Function.Injective cfg.hashFn)
    (u v : FileEntry) (cu cv hh : String)
    (hcu : u.content = some cu) (hcv : v.content = some cv)
    (hku : checksumOf cfg u = some hh) (hkv : checksumOf cfg v = some hh) :
    cu = cv := by
  simp only [checksumOf, compute_md5, hcu] at hku
  simp only [checksumOf, compute_md5, hcv] at hkv
  by_cases h1 : cfg.hashFn cu = cfg.hashFn ""
  · rw [if_pos h1] at hku
    by_cases h2 : cfg.hashFn cv = cfg.hashFn ""
    · rw [hinj h1, hinj h2]
    · rw [if_neg h2] at hkv
      have e1 : EMPTY_FILE_MD5_HASH = hh := Option.some.inj hku
      have e2 : cfg.hashFn cv = hh := Option.some.inj hkv
      exact absurd (e2.trans e1.symm) (hnt cv)
  · rw [if_neg h1] at hku
    by_cases h2 : cfg.hashFn cv = cfg.hashFn ""
    · rw [if_pos h2] at hkv
      have e1 : cfg.hashFn cu = hh := Option.some.inj hku
      have e2 : EMPTY_FILE_MD5_HASH = hh := Option.some.inj hkv
      exact absurd (e1.trans e2.symm) (hnt cu)
    · rw [if_neg h2] at hkv
      exact hinj ((Option.some.inj hku).trans (Option.some.inj hkv).symm)

/-- C6 amended: over any stream of visited files run through the duplicate
block (with an injective digest whose outputs are nonempty and never the
sentinel): (1) with empty files included, any two visited files with
identical readable content are recorded under one common key of the map;
(2) a zero-length file's key is the distinguished sentinel; (3) a hash is
in the duplicate set exactly when at least two files were recorded under
it — so a second record is what makes a hash a duplicate; (4) a file whose
content no other visited file shares never has its hash in the set; and
(5) — correcting the claim — when the option excluding empty files is on,
empty files are NOT recorded in the map at all: the sentinel key is absent,
not merely untreated. -/
theorem dup_grouping (cfg : Config) (fs : List FileEntry)
    (hdm : cfg.dupMode = true)
    (hne : ∀ c : String, cfg.hashFn c ≠ "")
    (hnt : ∀ c : String, cfg.hashFn c ≠ EMPTY_FILE_MD5_HASH)
    (hinj : Function.Injective cfg.hashFn) :
    (cfg.dupNonempty = false →
      ∀ f g c, f ∈ fs → g ∈ fs → f.content = some c → g.content = some c →
        ∃ k l, checksumOf cfg f = some k ∧ checksumOf cfg g = some k ∧
          mapLookup (dupFold cfg (initState 0) fs).dupMap (some k) = some l ∧
          f ∈ l ∧ g ∈ l) ∧
    (∀ f : FileEntry, f.content = some "" →
      checksumOf cfg f = some EMPTY_FILE_MD5_HASH) ∧
    (∀ h : String, h ∈ (dupFold cfg (initState 0) fs).dupSet ↔
      (h ≠ "" ∧ 2 ≤ (dupGroup cfg fs h).length)) ∧
    (∀ f c h, f ∈ fs → f.content = some c → checksumOf cfg f = some h →
      (fs.filter fun g => decide (g.content = some c)).length ≤ 1 →
      h ∉ (dupFold cfg (initState 0) fs).dupSet) ∧
    (cfg.dupNonempty = true →
      mapLookup (dupFold cfg (initState 0) fs).dupMap
        (some EMPTY_FILE_MD5_HASH) = none) := by
  have htr : ∀ f ∈ fs, ∀ h : String, checksumOf cfg f = some h → h ≠ "" := by
    intro f _ h hc
    obtain ⟨c, hcont⟩ := checksum_content cfg f h hc
    simp only [checksumOf, compute_md5, hcont] at hc
    by_cases he : cfg.hashFn c = cfg.hashFn ""
    · rw [if_pos he] at hc
      rw [← Option.some.inj hc]
      decide
    · rw [if_neg he] at hc
      rw [← Option.some.inj hc]
      exact hne c
  obtain ⟨hmap, hset⟩ := dupFold_inv cfg hdm fs [] (initState 0) htr
    (fun h _ => rfl) (by intro h; simp [initState, dupGroup])
  have hmap' : ∀ h : String, h ≠ "" →
      mapLookup (dupFold cfg (initState 0) fs).dupMap (some h)
        = listToOpt (dupGroup cfg fs h) := by
    intro h hne'
    simpa using hmap h hne'
  have hset' : ∀ h : String, h ∈ (dupFold cfg (initState 0) fs).dupSet ↔
      (h ≠ "" ∧ 2 ≤ (dupGroup cfg fs h).length) := by
    intro h
    simpa using hset h
  have hsent : ∀ f : FileEntry, f.content = some "" →
      checksumOf cfg f = some EMPTY_FILE_MD5_HASH := by
    intro f hf0
    simp [checksumOf, compute_md5, hf0]
  refine ⟨?_, hsent, hset', ?_, ?_⟩
  · intro hdn f g c hf hg hcf hcg
    have hkf : ∃ k, checksumOf cfg f = some k := by
      by_cases he : cfg.hashFn c = cfg.hashFn ""
      · exact ⟨EMPTY_FILE_MD5_HASH, by simp [checksumOf, compute_md5, hcf, he]⟩
      · exact ⟨cfg.hashFn c, by simp [checksumOf, compute_md5, hcf, he]⟩
    obtain ⟨k, hk⟩ := hkf
    have hkg : checksumOf cfg g = some k := by
      rw [checksumOf] at hk ⊢
      rw [hcf] at hk
      rw [hcg]
      exact hk
    have hkne : k ≠ "" := htr f hf k hk
    have hrecf : dupRecorded cfg f = true := by simp [dupRecorded, hdn]
    have hrecg : dupRecorded cfg g = true := by simp [dupRecorded, hdn]
    have hmf : f ∈ dupGroup cfg fs k :=
      List.mem_filter.mpr ⟨hf, by simp [hrecf, hk]⟩
    have hmg : g ∈ dupGroup cfg fs k :=
      List.mem_filter.mpr ⟨hg, by simp [hrecg, hkg]⟩
    have hlook := hmap' k hkne
    cases hG : dupGroup cfg fs k with
    | nil =>
      rw [hG] at hmf
      exact absurd hmf (by simp)
    | cons x xs =>
      rw [hG] at hlook hmf hmg
      exact ⟨k, x :: xs, hk, hkg, by rw [hlook]; rfl, hmf, hmg⟩
  · intro f c h hf hcf hch huniq hmem
    obtain ⟨hne', hlen⟩ := (hset' h).mp hmem
    have himp : ∀ g ∈ fs,
        (dupRecorded cfg g && decide (checksumOf cfg g = some h)) = true →
        decide (g.content = some c) = true := by
      intro g hg hp
      have hkg : checksumOf cfg g = some h := by
        rw [Bool.and_eq_true] at hp
        exact of_decide_eq_true hp.2
      obtain ⟨cg, hcg⟩ := checksum_content cfg g h hkg
      have hceq : cg = c :=
        checksum_same_content cfg hnt hinj g f cg c h hcg hcf hkg hch
      simp [hcg, hceq]
    have hcount : (dupGroup cfg fs h).length ≤
        (fs.filter fun g => decide (g.content = some c)).length := by
      rw [dupGroup, ← List.countP_eq_length_filter, ← List.countP_eq_length_filter]
      exact List.countP_mono_left himp
    omega
  · intro hdn
    have h1 := hmap' EMPTY_FILE_MD5_HASH (by decide)
    have h2 : dupGroup cfg fs EMPTY_FILE_MD5_HASH = [] := by
      rw [dupGroup]
      rw [List.filter_eq_nil_iff]
      intro g hg
      by_cases hk : checksumOf cfg g = some EMPTY_FILE_MD5_HASH
      · simp [dupRecorded, hk, hdn]
      · simp [hk]
    rw [h1, h2]
    rfl

/-- C6 counterexample: with the empty-file exclusion on, a visited
zero-length file is not tracked in the duplicate map at all: after its
duplicate block runs, the map has no entry under the sentinel key — indeed
no entry at all — while the claim says the sentinel group is still
tracked. -/
theorem dup_nonempty_cex :
    mapLookup (dupStep cfgDupNonempty (initState 0)
        (mkContentFile "e" "")).dupMap (some EMPTY_FILE_MD5_HASH) = none ∧
    (dupStep cfgDupNonempty (initState 0) (mkContentFile "e" "")).dupMap
      = [] := by
  constructor <;> rfl

/-- Witness for C6's amended theorem: two files with content `"hello"` end
up recorded under one common key. -/
theorem dup_grouping_witness :
    ∃ k l, checksumOf cfgDup (mkContentFile "a" "hello") = some k ∧
      checksumOf cfgDup (mkContentFile "d" "hello") = some k ∧
      mapLookup (dupFold cfgDup (initState 0)
          [mkContentFile "a" "hello", mkContentFile "d" "hello"]).dupMap
        (some k) = some l ∧
      mkContentFile "a" "hello" ∈ l ∧ mkContentFile "d" "hello" ∈ l :=
  (dup_grouping cfgDup [mkContentFile "a" "hello", mkContentFile "d" "hello"]
      rfl
      (by
        intro c heq
        simp only [cfgDup, cfgPlain] at heq
        have hlen := congrArg String.length heq
        rw [String.length_append] at hlen
        simp at hlen
        exact absurd hlen.1 (by decide))
      (by
        intro c heq
        simp only [cfgDup, cfgPlain, EMPTY_FILE_MD5_HASH] at heq
        have hh := congrArg (fun s : String => s.data.head?) heq
        simp only [String.data_append] at hh
        simp at hh)
      (by
        intro c1 c2 heq
        simp only [cfgDup, cfgPlain] at heq
        have hdata := congrArg String.data heq
        rw [String.data_append, String.data_append] at hdata
        have h2 := List.append_cancel_left hdata
        cases c1 with
        | mk d1 =>
          cases c2 with
          | mk d2 => simp_all)).1
    rfl (mkContentFile "a" "hello") (mkContentFile "d" "hello") "hello"
    (by simp) (by simp) rfl rfl

/-- Outside top mode, the selection state after the file loop is exactly
the duplicate block folded, in order, over the kept files: the walk feeds
every kept file to the duplicate block. -/
theorem gatherFiles_dupFold (cfg : Config) (hm : cfg.topMode = none) :
    ∀ (entries : List FSTree) (agg : Agg) (ch : List ResNode) (st : GState),
      (gatherFiles cfg (agg, ch, st) entries).2.2
        = dupFold cfg st (keptFiles cfg entries) := by
  intro entries
  induction entries with
  | nil =>
    intro agg ch st
    simp [gatherFiles, keptFiles, dupFold]
  | cons t ts ih =>
    intro agg ch st
    cases t with
    | dir d dl =>
      have hk : keptFiles cfg (FSTree.dir d dl :: ts) = keptFiles cfg ts := by
        simp [keptFiles]
      simp only [gatherFiles, hk]
      exact ih agg ch st
    | file f =>
      by_cases hf : cfg.fpred f = true
      · have hstep : fileStep cfg (agg, ch, st) f = linkFile cfg agg ch st f := by
          simp [fileStep, hm]
        have hk : keptFiles cfg (FSTree.file f :: ts) = f :: keptFiles cfg ts := by
          simp [keptFiles, hf]
        simp only [gatherFiles, if_pos hf, hstep, hk]
        exact ih (linkFile cfg agg ch st f).1 (linkFile cfg agg ch st f).2.1
          (dupStep cfg st f)
      · have hk : keptFiles cfg (FSTree.file f :: ts) = keptFiles cfg ts := by
          simp [keptFiles, hf]
        simp only [gatherFiles, if_neg hf, hk]
        exact ih agg ch st

end Atree
